import Mathlib

set_option maxRecDepth 4000

namespace Netdrift
namespace Sha256

/-- 32-bit truncation. -/
def w32 (n : Nat) : Nat := n % 4294967296

def add32 (a b : Nat) : Nat := (a + b) % 4294967296

def rotr (x n : Nat) : Nat := w32 ((x >>> n) ||| (x <<< (32 - n)))

def xor3 (a b c : Nat) : Nat := (a ^^^ b) ^^^ c

def smallSigma0 (x : Nat) : Nat := xor3 (rotr x 7) (rotr x 18) (x >>> 3)
def smallSigma1 (x : Nat) : Nat := xor3 (rotr x 17) (rotr x 19) (x >>> 10)
def bigSigma0 (x : Nat) : Nat := xor3 (rotr x 2) (rotr x 13) (rotr x 22)
def bigSigma1 (x : Nat) : Nat := xor3 (rotr x 6) (rotr x 11) (rotr x 25)
def chF (x y z : Nat) : Nat := (x &&& y) ^^^ ((x ^^^ 4294967295) &&& z)
def majF (x y z : Nat) : Nat := ((x &&& y) ^^^ (x &&& z)) ^^^ (y &&& z)

def roundK : List Nat :=
  [1116352408, 1899447441, 3049323471, 3921009573, 961987163,
   1508970993, 2453635748, 2870763221, 3624381080, 310598401,
   607225278, 1426881987, 1925078388, 2162078206, 2614888103,
   3248222580, 3835390401, 4022224774, 264347078, 604807628,
   770255983, 1249150122, 1555081692, 1996064986, 2554220882,
   2821834349, 2952996808, 3210313671, 3336571891, 3584528711,
   113926993, 338241895, 666307205, 773529912, 1294757372,
   1396182291, 1695183700, 1986661051, 2177026350, 2456956037,
   2730485921, 2820302411, 3259730800, 3345764771, 3516065817,
   3600352804, 4094571909, 275423344, 430227734, 506948616,
   659060556, 883997877, 958139571, 1322822218, 1537002063,
   1747873779, 1955562222, 2024104815, 2227730452, 2361852424,
   2428436474, 2756734187, 3204031479, 3329325298]

/-- The eight 32-bit words of the hash state. -/
structure H8 where
  a0 : Nat
  a1 : Nat
  a2 : Nat
  a3 : Nat
  a4 : Nat
  a5 : Nat
  a6 : Nat
  a7 : Nat
deriving Repr, DecidableEq

def initH : H8 :=
  ⟨1779033703, 3144134277, 1013904242, 2773480762,
   1359893119, 2600822924, 528734635, 1541459225⟩

/-- Message padding: append 0x80, zeros, then the 64-bit big-endian bit length. -/
def padMessage (msg : List Nat) : List Nat :=
  let len := msg.length
  let bitLen := 8 * len
  let zeros := (119 - len % 64) % 64
  msg ++ [128] ++ List.replicate zeros 0 ++
    [(bitLen >>> 56) % 256, (bitLen >>> 48) % 256, (bitLen >>> 40) % 256,
     (bitLen >>> 32) % 256, (bitLen >>> 24) % 256, (bitLen >>> 16) % 256,
     (bitLen >>> 8) % 256, bitLen % 256]

def bytesToWords : List Nat → List Nat
  | b0 :: b1 :: b2 :: b3 :: rest =>
      (((b0 * 256 + b1) * 256 + b2) * 256 + b3) :: bytesToWords rest
  | _ => []

def scheduleAux : Nat → Array Nat → Array Nat
  | 0, arr => arr
  | n + 1, arr =>
      let i := arr.size
      let v := add32 (add32 (smallSigma1 (arr.getD (i - 2) 0)) (arr.getD (i - 7) 0))
        (add32 (smallSigma0 (arr.getD (i - 15) 0)) (arr.getD (i - 16) 0))
      scheduleAux n (arr.push v)

def schedule (ws : List Nat) : List Nat := (scheduleAux 48 ws.toArray).toList

def roundStep (st : H8) (k w : Nat) : H8 :=
  let t1 := add32 st.a7 (add32 (bigSigma1 st.a4) (add32 (chF st.a4 st.a5 st.a6) (add32 k w)))
  let t2 := add32 (bigSigma0 st.a0) (majF st.a0 st.a1 st.a2)
  ⟨add32 t1 t2, st.a0, st.a1, st.a2, add32 st.a3 t1, st.a4, st.a5, st.a6⟩

def compressChunk (st : H8) (chunk : List Nat) : H8 :=
  let ws := schedule (bytesToWords chunk)
  let f := (roundK.zip ws).foldl (fun s kw => roundStep s kw.1 kw.2) st
  ⟨add32 st.a0 f.a0, add32 st.a1 f.a1, add32 st.a2 f.a2, add32 st.a3 f.a3,
   add32 st.a4 f.a4, add32 st.a5 f.a5, add32 st.a6 f.a6, add32 st.a7 f.a7⟩

def chunks64Aux : Nat → List Nat → List (List Nat)
  | 0, _ => []
  | fuel + 1, l => if l = [] then [] else l.take 64 :: chunks64Aux fuel (l.drop 64)

def chunks64 (l : List Nat) : List (List Nat) := chunks64Aux (l.length + 1) l

def wordBytes (w : Nat) : List Nat :=
  [(w >>> 24) % 256, (w >>> 16) % 256, (w >>> 8) % 256, w % 256]

/-- SHA-256 digest of a byte list: always eight words, i.e. 32 bytes. -/
def sha256 (msg : List Nat) : List Nat :=
  let st := (chunks64 (padMessage msg)).foldl compressChunk initH
  wordBytes st.a0 ++ wordBytes st.a1 ++ wordBytes st.a2 ++ wordBytes st.a3 ++
    wordBytes st.a4 ++ wordBytes st.a5 ++ wordBytes st.a6 ++ wordBytes st.a7

/-- Lowercase hexadecimal digit for `n % 16`. -/
def hexDigitChar (n : Nat) : Char :=
  "0123456789abcdef".data.getD (n % 16) '0' 

def byteHex (b : Nat) : List Char := [hexDigitChar (b / 16), hexDigitChar b]

/-- `hashlib.sha256(...).hexdigest()` on a byte list. -/
def hexdigest (msg : List Nat) : String := ⟨((sha256 msg).map byteHex).flatten⟩

def strBytes (s : String) : List Nat := s.data.map Char.toNat

def sha256hex (s : String) : String := hexdigest (strBytes s)

end Sha256

/-! ## XML document model

Shallow embedding of the XML documents handled by `netdrift.logic`:
`validate_xml` (lxml `ET.XML`) parses a raw string into an element tree and
`format_xml` (lxml `ET.tostring(..., strip_text=True, method="c14n2")`)
serializes a tree into canonical bytes: text nodes trimmed, attributes in a
deterministic order, no insignificant whitespace. -/

def isSpaceChar (c : Char) : Bool :=
  c = ' ' || c = '\t' || c = '\n' || c = '\r'

def trimChars (l : List Char) : List Char :=
  ((l.dropWhile isSpaceChar).reverse.dropWhile isSpaceChar).reverse

def trimStr (s : String) : String := ⟨trimChars s.data⟩

def isNameChar (c : Char) : Bool :=
  c.isAlphanum || c = '-' || c = '_' || c = '.' || c = ':'

def textCleanChar (c : Char) : Bool :=
  !(c = '<') && !(c = '&') && !(c = '>')

def attrCleanChar (c : Char) : Bool :=
  !(c = '<') && !(c = '&') && !(c = '"') && !(c = '\t') && !(c = '\n') && !(c = '\r')

mutual
/-- An XML node: a text node or an element with attributes and children. -/
inductive Node where
  | text : String → Node
  | elem : String → List (String × String) → NodeList → Node
deriving DecidableEq, Repr

/-- Children of an element. -/
inductive NodeList where
  | nil : NodeList
  | cons : Node → NodeList → NodeList
deriving DecidableEq, Repr
end

/-- Lexicographic strict order on character lists, by code point. -/
def strLtB : List Char → List Char → Bool
  | [], [] => false
  | [], _ :: _ => true
  | _ :: _, [] => false
  | a :: as, b :: bs =>
      if a.toNat < b.toNat then true
      else if b.toNat < a.toNat then false
      else strLtB as bs

def strLeB (a b : List Char) : Bool := !(strLtB b a)

/-- Deterministic attribute order used by the canonical serialization: by
attribute name, ties broken by value; on well-formed attribute lists
(distinct names) this is exactly the by-name order of C14N. -/
def attrLeB (a b : String × String) : Bool :=
  if a.1.data = b.1.data then strLeB a.2.data b.2.data
  else strLtB a.1.data b.1.data

def attrRel (a b : String × String) : Prop := attrLeB a b = true

instance : DecidableRel attrRel := fun a b => by
  unfold attrRel; infer_instance

def sortAttrs (l : List (String × String)) : List (String × String) :=
  l.insertionSort attrRel

/-- C14N escaping of text content. -/
def escTextChar (c : Char) : List Char :=
  if c = '&' then "&amp;".data
  else if c = '<' then "&lt;".data
  else if c = '>' then "&gt;".data
  else [c]

def escTextL (l : List Char) : List Char := (l.map escTextChar).flatten

/-- C14N escaping of attribute values. -/
def escAttrChar (c : Char) : List Char :=
  if c = '&' then "&amp;".data
  else if c = '<' then "&lt;".data
  else if c = '"' then "&quot;".data
  else if c = '\t' then "&#x9;".data
  else if c = '\n' then "&#xA;".data
  else if c = '\r' then "&#xD;".data
  else [c]

def escAttrL (l : List Char) : List Char := (l.map escAttrChar).flatten

def serAttrC (a : String × String) : List Char :=
  ' ' :: (a.1.data ++ '=' :: '"' :: (escAttrL a.2.data ++ ['"']))

def serAttrsC (l : List (String × String)) : List Char := (l.map serAttrC).flatten

mutual
/-- Serialization of one node (characters). -/
def serNodeC : Node → List Char
  | .text s => escTextL s.data
  | .elem n attrs cs =>
      '<' :: (n.data ++ serAttrsC attrs ++ '>' ::
        (serNodesC cs ++ '<' :: '/' :: (n.data ++ ['>'])))

/-- Serialization of a node list (characters). -/
def serNodesC : NodeList → List Char
  | .nil => []
  | .cons x rest => serNodeC x ++ serNodesC rest
end

mutual
/-- Trim every text node, dropping the ones that become empty
(the `strip_text=True` half of the canonical serialization). -/
def stripWsN : Node → Node
  | .text s => .text (trimStr s)
  | .elem n a cs => .elem n a (stripWsL cs)

def stripWsL : NodeList → NodeList
  | .nil => .nil
  | .cons (.text s) r =>
      if trimStr s = "" then stripWsL r else .cons (.text (trimStr s)) (stripWsL r)
  | .cons (.elem n a c) r => .cons (.elem n a (stripWsL c)) (stripWsL r)
end

mutual
/-- Put every attribute list in the deterministic canonical order. -/
def sortAttrsN : Node → Node
  | .text s => .text s
  | .elem n a cs => .elem n (sortAttrs a) (sortAttrsL cs)

def sortAttrsL : NodeList → NodeList
  | .nil => .nil
  | .cons x r => .cons (sortAttrsN x) (sortAttrsL r)
end

/-- Canonical form of a tree: trimmed text, deterministically ordered attributes. -/
def canonN (t : Node) : Node := sortAttrsN (stripWsN t)

/-- `format_xml`: canonical serialization of an element tree
(lxml `ET.tostring(..., pretty_print=False, strip_text=True, method="c14n2")`). -/
def format_xml (t : Node) : String := ⟨serNodeC (canonN t)⟩

/-! ## Parser (`validate_xml`, lxml `ET.XML` at the model boundary) -/

def skipWs (cs : List Char) : List Char := cs.dropWhile isSpaceChar

def parseName (cs : List Char) : Option (String × List Char) :=
  let n := cs.takeWhile isNameChar
  if n.isEmpty then none else some (⟨n⟩, cs.dropWhile isNameChar)

def parseAttrs : Nat → List Char → Option (List (String × String) × List Char)
  | 0, _ => none
  | fuel + 1, cs =>
    let cs1 := skipWs cs
    match cs1 with
    | c :: _ =>
      if isNameChar c then
        match parseName cs1 with
        | none => none
        | some (n, cs2) =>
          match skipWs cs2 with
          | '=' :: cs3 =>
            match skipWs cs3 with
            | '"' :: cs4 =>
              let v := cs4.takeWhile (fun c => !(c = '"'))
              match cs4.dropWhile (fun c => !(c = '"')) with
              | '"' :: cs5 =>
                match parseAttrs fuel cs5 with
                | none => none
                | some (rest, cs6) => some ((n, ⟨v⟩) :: rest, cs6)
              | _ => none
            | _ => none
          | _ => none
      else some ([], cs1)
    | [] => some ([], cs1)

mutual
def parseElem : Nat → List Char → Option (Node × List Char)
  | 0, _ => none
  | fuel + 1, cs =>
    match cs with
    | '<' :: cs1 =>
      match parseName cs1 with
      | none => none
      | some (n, cs2) =>
        match parseAttrs (cs2.length + 1) cs2 with
        | none => none
        | some (attrs, cs3) =>
          match cs3 with
          | '/' :: '>' :: cs4 => some (.elem n attrs .nil, cs4)
          | '>' :: cs4 =>
            match parseContent fuel cs4 with
            | none => none
            | some (children, cs5) =>
              match cs5 with
              | '<' :: '/' :: cs6 =>
                match parseName cs6 with
                | none => none
                | some (n2, cs7) =>
                  if n2 = n then
                    match skipWs cs7 with
                    | '>' :: cs8 => some (.elem n attrs children, cs8)
                    | _ => none
                  else none
              | _ => none
          | _ => none
    | _ => none

def parseContent : Nat → List Char → Option (NodeList × List Char)
  | 0, _ => none
  | fuel + 1, cs =>
    match cs with
    | [] => some (.nil, [])
    | c :: cs1 =>
      if c = '<' then
        if cs1.head? = some '/' then some (.nil, c :: cs1)
        else
          match parseElem fuel (c :: cs1) with
          | none => none
          | some (nd, cs2) =>
            match parseContent fuel cs2 with
            | none => none
            | some (rest, cs3) => some (.cons nd rest, cs3)
      else
        match parseContent fuel ((c :: cs1).dropWhile (fun d => !(d = '<'))) with
        | none => none
        | some (rest, cs2) =>
          some (.cons (.text ⟨(c :: cs1).takeWhile (fun d => !(d = '<'))⟩) rest, cs2)
end

/-- `validate_xml`: parse a raw document, `none` on malformed input
(`NetdriftXMLParserError` in the code). -/
def validate_xml (s : String) : Option Node :=
  match parseElem ((skipWs s.data).length + 1) (skipWs s.data) with
  | some (nd, rest) => if skipWs rest = [] then some nd else none
  | none => none

/-! ## Well-formedness of a tree for the round trip -/

def okName (s : String) : Bool := !s.data.isEmpty && s.data.all isNameChar

def okText (s : String) : Bool := !s.data.isEmpty && s.data.all textCleanChar

def okAttr (a : String × String) : Bool := okName a.1 && a.2.data.all attrCleanChar

def headNotText : NodeList → Bool
  | .cons (.text _) _ => false
  | _ => true

mutual
/-- Well-formed tree: names and character data use plain characters, text
nodes are non-empty, and no two text nodes are adjacent. -/
def wfN : Node → Bool
  | .text s => okText s
  | .elem n attrs cs => okName n && attrs.all okAttr && wfL cs

def wfL : NodeList → Bool
  | .nil => true
  | .cons (.text s) r => okText s && headNotText r && wfL r
  | .cons (.elem n a c) r => wfN (.elem n a c) && wfL r
end

/-! ## Document equivalence (the spec's notion)

Two well-formed documents are "semantically identical, differing only in
insignificant whitespace and attribute order" when, after trimming and
dropping whitespace-only text, they agree node for node up to a permutation
of each element's attribute list. -/

mutual
def attrPermN : Node → Node → Bool
  | .text s1, .text s2 => s1 = s2
  | .elem n1 a1 c1, .elem n2 a2 c2 => n1 = n2 && decide (a1.Perm a2) && attrPermL c1 c2
  | _, _ => false

def attrPermL : NodeList → NodeList → Bool
  | .nil, .nil => true
  | .cons x r, .cons y s => attrPermN x y && attrPermL r s
  | _, _ => false
end

/-- The spec's equivalence: equal up to insignificant whitespace and attribute order. -/
def equivDoc (t1 t2 : Node) : Bool := attrPermN (stripWsN t1) (stripWsN t2)

def noLead (p : Char → Bool) : List Char → Prop
  | [] => True
  | c :: _ => p c = false

def isElemB : Node → Bool
  | .text _ => false
  | .elem _ _ _ => true

mutual
def sizeN : Node → Nat
  | .text _ => 1
  | .elem _ _ cs => sizeL cs + 1

def sizeL : NodeList → Nat
  | .nil => 1
  | .cons x r => max (sizeN x) (sizeL r) + 1
end

/-! ## Data model (`netdrift.models`) and document store

Collections are lists of records; `create` appends a record with a fresh id,
mirroring the store's insert + refresh contract (spec section 6). Errors of
`netdrift.exceptions` become constructors of `NetdriftError`; raising an
exception aborts the request before any write, so a request that fails
returns `Except.error` and leaves the database unchanged. -/

deriving instance DecidableEq for Except

inductive NetdriftError where
  | xmlParserError
  | FullIntentNotFound
  | PartialIntentNotFound
  | FullIntentAlreadyExist
  | PartialIntentAlreadyExist
  | PartialIntentFilterAlreadyExist
  | IntentGroupAlreadyExist
  | FullIntentUpdateError
  | PartialIntentUpdateError
  | apiLockError
  | hostnameLockError
  | IntentGroupNotFound
  | IntentGroupHostnameManaged
  | IntentGroupHostnameMismatch
  | IntentGroupDuplication
  | notImplemented
deriving DecidableEq, Repr

/-- `FullIntentConfig`. -/
structure FullIntent where
  id : Nat
  hostname : String
  netdrift_managed : Bool
  config : Option String
  config_hash : Option String
deriving DecidableEq, Repr

/-- `PartialIntentConfig`. -/
structure PartialIntent where
  id : Nat
  hostname : Option String
  netdrift_managed : Bool
  config : Option String
  config_hash : Option String
  filter : Option String
  filter_hash : Option String
deriving DecidableEq, Repr

mutual
/-- `IntentGroup`, with materialized member lists (nested groups). -/
inductive IntentGroup where
  | mk (id : Nat) (label : String) (hostname : Option String)
      (intents : List PartialIntent) (groups : IntentGroupList)
deriving DecidableEq, Repr

/-- Materialized sub-group list of an `IntentGroup`. -/
inductive IntentGroupList where
  | nil : IntentGroupList
  | cons : IntentGroup → IntentGroupList → IntentGroupList
deriving DecidableEq, Repr
end

def IntentGroup.id : IntentGroup → Nat
  | .mk i _ _ _ _ => i

def IntentGroup.label : IntentGroup → String
  | .mk _ l _ _ _ => l

def IntentGroup.hostname : IntentGroup → Option String
  | .mk _ _ h _ _ => h

def IntentGroup.intents : IntentGroup → List PartialIntent
  | .mk _ _ _ xs _ => xs

def IntentGroup.groups : IntentGroup → IntentGroupList
  | .mk _ _ _ _ gs => gs

def toGroupList : List IntentGroup → IntentGroupList
  | [] => .nil
  | g :: gs => .cons g (toGroupList gs)

/-- `IntentDiff`. -/
structure IntentDiff where
  id : Nat
  intent_id : Nat
  diff : String
  intent : String
deriving DecidableEq, Repr

inductive IntentType where
  | full
  | part
deriving DecidableEq, Repr

inductive DiscoveryStatus where
  | unknown
  | success
  | failed
deriving DecidableEq, Repr

/-- Modelled from the spec: the `Intent` data model of section 3 (identity, hostname,
type, optional subtree filter, canonical config, config hash, last-discovery
fields); the `netdrift.models.intent.Intent` class itself is referenced by the
worker and CRUD layers but missing from the source tree. -/
structure Intent where
  id : Nat
  hostname : String
  type : IntentType
  filter : Option String
  config : Option String
  config_hash : Option String
  last_discovery_id : Option String
  last_discovery_status : DiscoveryStatus
  last_discovery_message : Option String
deriving DecidableEq, Repr

/-- The document store: one list per collection plus a fresh-id counter. -/
structure DB where
  fulls : List FullIntent
  parts : List PartialIntent
  groups : List IntentGroup
  diffs : List IntentDiff
  intents : List Intent
  nextId : Nat
deriving DecidableEq, Repr

/-! ## CRUD queries (`netdrift.crud`) -/

/-- `crud.full_intent.get_by_hostname`: `find_one({"hostname": hostname})`. -/
def get_by_hostname (db : DB) (hostname : String) : Option FullIntent :=
  db.fulls.find? (fun f => decide (f.hostname = hostname))

/-- `crud.partial_intent.get_all_by_config_hash`: strict match on
`{"hostname": hostname, "config_hash": config_hash}` (a `None` hostname matches
only records whose hostname is null/missing). -/
def getAllByConfigHash (db : DB) (config_hash : String) (hostname : Option String) :
    List PartialIntent :=
  db.parts.filter (fun p =>
    decide (p.hostname = hostname) && decide (p.config_hash = some config_hash))

/-- `crud.partial_intent.get_all_by_filter_hash`: strict match on
`{"hostname": hostname, "filter_hash": filter_hash}`. -/
def getAllByFilterHash (db : DB) (filter_hash : String) (hostname : Option String) :
    List PartialIntent :=
  db.parts.filter (fun p =>
    decide (p.hostname = hostname) && decide (p.filter_hash = some filter_hash))

def getPartialById (db : DB) (id : Nat) : Option PartialIntent :=
  db.parts.find? (fun p => decide (p.id = id))

def getFullById (db : DB) (id : Nat) : Option FullIntent :=
  db.fulls.find? (fun f => decide (f.id = id))

def get_group_by_label (db : DB) (label : String) : Option IntentGroup :=
  db.groups.find? (fun g => decide (g.label = label))

def get_group (db : DB) (id : Nat) : Option IntentGroup :=
  db.groups.find? (fun g => decide (g.id = id))

/-- `crud.full_intent.delete`: `delete_one({"_id": id})`. -/
def delete_full_intent (db : DB) (id : Nat) : DB :=
  { db with fulls := db.fulls.filter (fun f => !(decide (f.id = id))) }

/-! ## Intent creation and update logic (`netdrift.logic`) -/

/-- `FullIntentConfigCreate` (hostname and config required). -/
structure FullCreate where
  hostname : String
  netdrift_managed : Bool
  config : String
deriving DecidableEq, Repr

/-- `PartialIntentConfigCreate` (config and filter required; hostname optional). -/
structure PartialCreate where
  hostname : Option String
  netdrift_managed : Bool
  config : String
  filter : String
deriving DecidableEq, Repr

/-- `logic.create_full_intent`. -/
def create_full_intent (db : DB) (intent : FullCreate) :
    Except NetdriftError (DB × FullIntent) :=
  if (get_by_hostname db intent.hostname).isSome then
    .error .FullIntentAlreadyExist
  else
    match validate_xml intent.config with
    | none => .error .xmlParserError
    | some xmlObj =>
      let formatted := format_xml xmlObj
      let chash := Sha256.sha256hex formatted
      let obj : FullIntent :=
        { id := db.nextId, hostname := intent.hostname,
          netdrift_managed := intent.netdrift_managed,
          config := some formatted, config_hash := some chash }
      .ok ({ db with fulls := db.fulls ++ [obj], nextId := db.nextId + 1 }, obj)

/-- `logic.create_partial_intent` (config dedup first, then filter dedup; the
stored config is the canonical form, the stored filter is the raw input). -/
def createPartialIntent (db : DB) (intent : PartialCreate) :
    Except NetdriftError (DB × PartialIntent) :=
  match validate_xml intent.config with
  | none => .error .xmlParserError
  | some xmlObj =>
    let formatted := format_xml xmlObj
    let chash := Sha256.sha256hex formatted
    if getAllByConfigHash db chash intent.hostname ≠ [] then
      .error .PartialIntentAlreadyExist
    else
      match validate_xml intent.filter with
      | none => .error .xmlParserError
      | some filterObj =>
        let ffmt := format_xml filterObj
        let fhash := Sha256.sha256hex ffmt
        if getAllByFilterHash db fhash intent.hostname ≠ [] then
          .error .PartialIntentFilterAlreadyExist
        else
          let obj : PartialIntent :=
            { id := db.nextId, hostname := intent.hostname,
              netdrift_managed := intent.netdrift_managed,
              config := some formatted, config_hash := some chash,
              filter := some intent.filter, filter_hash := some fhash }
          .ok ({ db with parts := db.parts ++ [obj], nextId := db.nextId + 1 }, obj)

/-- `IntentGroupCreate`: member references by id. -/
structure GroupCreate where
  label : String
  hostname : Option String
  intents : List Nat
  groups : List Nat
deriving DecidableEq, Repr

/-- First loop of `logic.create_intent_group`: resolve directly referenced
partial intents, accumulating the managed id set. -/
def resolveIntents (db : DB) (ghost : Option String) :
    List Nat → List Nat → List PartialIntent →
    Except NetdriftError (List Nat × List PartialIntent)
  | [], managed, acc => .ok (managed, acc)
  | i :: rest, managed, acc =>
    if i ∈ managed then .error .IntentGroupDuplication
    else
      match getPartialById db i with
      | none => .error .PartialIntentNotFound
      | some ex =>
        if ghost.isNone && ex.hostname.isSome then .error .IntentGroupHostnameManaged
        else if ghost.isSome && ex.hostname.isSome && decide (ghost ≠ ex.hostname) then
          .error .IntentGroupHostnameMismatch
        else resolveIntents db ghost rest (managed ++ [ex.id]) (acc ++ [ex])

/-- Inner loop of `logic.create_intent_group`: the direct member intents of a
referenced group are checked against and added to the managed set (only the
direct ones — nested sub-groups are not traversed). -/
def addInherited : List PartialIntent → List Nat → Except NetdriftError (List Nat)
  | [], managed => .ok managed
  | p :: rest, managed =>
    if p.id ∈ managed then .error .IntentGroupDuplication
    else addInherited rest (managed ++ [p.id])

/-- Second loop of `logic.create_intent_group`: resolve referenced groups. -/
def resolveGroups (db : DB) (ghost : Option String) :
    List Nat → List Nat → List IntentGroup →
    Except NetdriftError (List Nat × List IntentGroup)
  | [], managed, acc => .ok (managed, acc)
  | g :: rest, managed, acc =>
    match get_group db g with
    | none => .error .IntentGroupNotFound
    | some ex =>
      if ghost.isNone && ex.hostname.isSome then .error .IntentGroupHostnameManaged
      else if ghost.isSome && ex.hostname.isSome && decide (ghost ≠ ex.hostname) then
        .error .IntentGroupHostnameMismatch
      else
        match addInherited ex.intents managed with
        | .error e => .error e
        | .ok managed2 => resolveGroups db ghost rest managed2 (acc ++ [ex])

/-- `logic.create_intent_group`. -/
def create_intent_group (db : DB) (req : GroupCreate) :
    Except NetdriftError (DB × IntentGroup) :=
  if (get_group_by_label db req.label).isSome then .error .IntentGroupAlreadyExist
  else
    match resolveIntents db req.hostname req.intents [] [] with
    | .error e => .error e
    | .ok (managed, intentObjs) =>
      match resolveGroups db req.hostname req.groups managed [] with
      | .error e => .error e
      | .ok (_, groupObjs) =>
        let g : IntentGroup := .mk db.nextId req.label req.hostname intentObjs
          (toGroupList groupObjs)
        .ok ({ db with groups := db.groups ++ [g], nextId := db.nextId + 1 }, g)

/-- `logic.update_intent_group`: `raise NotImplementedError`, which the
application handler in `main.py` maps to `NetdriftNotImplementedError`. -/
def update_intent_group (db : DB) (group_id : Nat) (intent_group : GroupCreate) :
    Except NetdriftError IntentGroup :=
  .error .notImplemented

/-- The PATCH route of `api/intent/group.py`: existence check, then the
(unimplemented) update logic. -/
def update_intent_group_api (db : DB) (group_id : Nat) (intent_group : GroupCreate) :
    Except NetdriftError IntentGroup :=
  match get_group db group_id with
  | none => .error .IntentGroupNotFound
  | some _ => update_intent_group db group_id intent_group

/-- `PartialIntentConfigUpdate`: every field optional except the managed flag,
which pydantic defaults to `False` when the payload omits it. -/
structure PartialUpdate where
  id : Option Nat
  hostname : Option String
  netdrift_managed : Bool
  config : Option String
  filter : Option String
deriving DecidableEq, Repr

/-- `FullIntentConfigUpdate`. -/
structure FullUpdate where
  id : Option Nat
  hostname : Option String
  netdrift_managed : Bool
  config : Option String
deriving DecidableEq, Repr

/-- Validate, canonicalize and hash an optional document (the shared
`if intent.config:` re-hash step of the update paths). -/
def rehash (s : Option String) : Except NetdriftError (Option (String × String)) :=
  match s with
  | none => .ok none
  | some raw =>
    match validate_xml raw with
    | none => .error .xmlParserError
    | some x => .ok (some (format_xml x, Sha256.sha256hex (format_xml x)))

/-- `logic.update_partial_intent`: id lock, managed-flag lock, optional config
and filter re-hash, then the `crud.base.update` merge (payload fields that are
not `None` overwrite the stored record). -/
def updatePartialIntent (db : DB) (intent_id : Nat) (intent : PartialUpdate) :
    Except NetdriftError (DB × PartialIntent) :=
  match getPartialById db intent_id with
  | none => .error .PartialIntentNotFound
  | some existing =>
    if intent.id.isSome && decide (intent.id ≠ some existing.id) then
      .error .PartialIntentUpdateError
    else if decide (intent.netdrift_managed ≠ existing.netdrift_managed) then
      .error .apiLockError
    else
      match rehash intent.config with
      | .error e => .error e
      | .ok cfgRes =>
        match rehash intent.filter with
        | .error e => .error e
        | .ok fltRes =>
          let merged : PartialIntent :=
            { existing with
              hostname := match intent.hostname with
                | some h => some h
                | none => existing.hostname,
              netdrift_managed := intent.netdrift_managed,
              config := match cfgRes with
                | some fc => some fc.1
                | none => existing.config,
              config_hash := match cfgRes with
                | some fc => some fc.2
                | none => existing.config_hash,
              filter := match fltRes with
                | some ff => some ff.1
                | none => existing.filter,
              filter_hash := match fltRes with
                | some ff => some ff.2
                | none => existing.filter_hash }
          .ok ({ db with
            parts := db.parts.map (fun p => if p.id = intent_id then merged else p) },
            merged)

/-- `logic.update_full_intent`: same locks, config re-hash only. -/
def update_full_intent (db : DB) (intent_id : Nat) (intent : FullUpdate) :
    Except NetdriftError (DB × FullIntent) :=
  match getFullById db intent_id with
  | none => .error .FullIntentNotFound
  | some existing =>
    if intent.id.isSome && decide (intent.id ≠ some existing.id) then
      .error .FullIntentUpdateError
    else if decide (intent.netdrift_managed ≠ existing.netdrift_managed) then
      .error .apiLockError
    else
      match rehash intent.config with
      | .error e => .error e
      | .ok cfgRes =>
        let merged : FullIntent :=
          { existing with
            hostname := match intent.hostname with
              | some h => h
              | none => existing.hostname,
            netdrift_managed := intent.netdrift_managed,
            config := match cfgRes with
              | some fc => some fc.1
              | none => existing.config,
            config_hash := match cfgRes with
              | some fc => some fc.2
              | none => existing.config_hash }
        .ok ({ db with
          fulls := db.fulls.map (fun f => if f.id = intent_id then merged else f) },
          merged)


/-! ## Discovery/diff worker (`netdrift.worker.config`) and notifier (`netdrift.webhook`)

The device session is the external session provider of spec section 6: a job
receives either the fetched configuration tree (`reply.data`) or the message of
the `SSHError` the transport raised. A job returns the database it leaves
behind together with the Python exception it escaped with, if any. -/

/-- Modelled from the spec: `DeviceAuthentication` credentials passed with a job. -/
structure DeviceAuth where
  username : String
  password : String
deriving DecidableEq, Repr

/-- `netdrift.models.webhook.Webhook` (url and templated body). -/
structure Webhook where
  url : String
  body : String
deriving DecidableEq, Repr

/-- Modelled from the spec: `IntentJob` — the payload handed to a worker
(intent snapshot, credentials, optional webhook); the class is referenced by
the worker and API but missing from the source tree. -/
structure IntentJob where
  intent : Intent
  auth : DeviceAuth
  webhook : Option Webhook
deriving DecidableEq, Repr

inductive PyError where
  | valueError
  | nameError
  | xmlError
  | assertionError
deriving DecidableEq, Repr

/-- Outcome of one worker job: the database it left behind and the Python
exception it escaped with, if any. -/
structure JobResult where
  db : DB
  crash : Option PyError
deriving DecidableEq, Repr

/-- The `crud.base.update` merge for the `intent` collection
(`exclude_none=True`: only fields the job set are written). -/
def applyIntentUpdate (it : Intent) (upd : Option String × Option String ×
    Option DiscoveryStatus × Option String) : Intent :=
  { it with
    config := match upd.1 with
      | some c => some c
      | none => it.config,
    config_hash := match upd.2.1 with
      | some h => some h
      | none => it.config_hash,
    last_discovery_status := match upd.2.2.1 with
      | some s => s
      | none => it.last_discovery_status,
    last_discovery_message := match upd.2.2.2 with
      | some m => some m
      | none => it.last_discovery_message }

def crud_intent_update (db : DB) (id : Nat) (upd : Option String × Option String ×
    Option DiscoveryStatus × Option String) : DB :=
  { db with intents := db.intents.map (fun it =>
      if it.id = id then applyIntentUpdate it upd else it) }

/-- `worker.config.create_intent`: fetch, canonicalize, update the intent. On a
transport error the handler fills the failed-status update object and then
returns — before the database write that follows the `try` block — so the
stored intent is left untouched. -/
def create_intent_job (db : DB) (job : IntentJob) (session : Except String Node) : DB :=
  match session with
  | .error _ => db
  | .ok data =>
    let config_xml := format_xml data
    let config_hash := Sha256.sha256hex config_xml
    crud_intent_update db job.intent.id
      (some config_xml, some config_hash, some .success,
        some "Intent resynced and updated config hash.")

mutual
/-- Modelled from the spec: lxml pretty-printed serialization
(`etree.tostring(..., pretty_print=True)`), an opaque line-structured renderer
at the boundary; only used as input to the line diff. -/
def prettyN : Node → List String
  | .text s => [s]
  | .elem n attrs cs =>
    match cs with
    | .nil => ["<" ++ n ++ "/>"]
    | _ => ("<" ++ n ++ ">") :: (prettyL cs ++ ["</" ++ n ++ ">"])

def prettyL : NodeList → List String
  | .nil => []
  | .cons x r => prettyN x ++ prettyL r
end

/-- Python `"\n".join`. -/
def pyJoin (sep : String) : List String → String
  | [] => ""
  | [x] => x
  | x :: xs => x ++ sep ++ pyJoin sep xs

def prettyXml (t : Node) : String := pyJoin "\n" (prettyN t)

def splitOnChar (c : Char) : List Char → List (List Char)
  | [] => [[]]
  | d :: rest =>
    if d = c then [] :: splitOnChar c rest
    else
      match splitOnChar c rest with
      | [] => [[d]]
      | x :: xs => (d :: x) :: xs

/-- Python `str.splitlines` on newline-separated text without a trailing newline. -/
def pySplitlines (s : String) : List String :=
  if s.data = [] then [] else (splitOnChar '\n' s.data).map (fun l => ⟨l⟩)

/-- Modelled from the spec: the textual line-level diff
(`difflib.Differ().compare`), live lines first, intent lines second; each
output line is a tagged copy of one input line. -/
def differCompare (live intent : List String) : List String :=
  if live = intent then live.map (fun l => "  " ++ l)
  else live.map (fun l => "- " ++ l) ++ intent.map (fun l => "+ " ++ l)

/-- `webhook.send_intent_diff_webhook`: posts the payload and asserts the
response status is exactly 200 (`assert resp.status == 200`). -/
def send_intent_diff_webhook (responseStatus : Nat) : Except PyError Unit :=
  if responseStatus = 200 then .ok () else .error .assertionError

/-- `worker.config.intent_diff`: fetch the filtered live configuration,
compare content hashes, persist an `IntentDiff` and optionally notify. On a
transport error the `except` block only logs: `no_diff` stays false and the
following use of the never-assigned `config_xml` raises, with nothing written.
The intent record itself is never updated by this job. -/
def intent_diff_job (db : DB) (job : IntentJob) (session : Except String Node)
    (webhookStatus : Nat) : JobResult :=
  let intent := job.intent
  if intent.filter.isNone then ⟨db, some .valueError⟩
  else
    match session with
    | .error _ => ⟨db, some .nameError⟩
    | .ok data =>
      let config_xml := format_xml data
      let config_hash := Sha256.sha256hex config_xml
      if some config_hash = intent.config_hash then ⟨db, none⟩
      else
        match intent.config with
        | none => ⟨db, some .xmlError⟩
        | some icfg =>
          match validate_xml config_xml, validate_xml icfg with
          | some liveT, some intentT =>
            let config_formatted := prettyXml liveT
            let intent_formatted := prettyXml intentT
            let results := differCompare (pySplitlines config_formatted)
              (pySplitlines intent_formatted)
            let diff_str := pyJoin "\n" results
            let newDiff : IntentDiff :=
              { id := db.nextId, intent_id := intent.id, diff := diff_str, intent := icfg }
            let db2 : DB := { db with diffs := db.diffs ++ [newDiff], nextId := db.nextId + 1 }
            match job.webhook with
            | none => ⟨db2, none⟩
            | some _ =>
              match send_intent_diff_webhook webhookStatus with
              | .ok _ => ⟨db2, none⟩
              | .error e => ⟨db2, some e⟩
          | _, _ => ⟨db, some .xmlError⟩

/-! ## Claim-side notions for group reachability -/

mutual
/-- Ids of the partial intents transitively owned by a group (the spec's
"reachable at any depth" notion). -/
def gatherIds : IntentGroup → List Nat
  | .mk _ _ _ intents groups => intents.map (fun p => p.id) ++ gatherIdsL groups

def gatherIdsL : IntentGroupList → List Nat
  | .nil => []
  | .cons g rest => gatherIds g ++ gatherIdsL rest
end

/-- Every partial-intent occurrence reachable from a creation request: the
direct list and everything transitively owned by each referenced group. -/
def reachableIds (db : DB) (req : GroupCreate) : List Nat :=
  req.intents ++ ((req.groups.filterMap (get_group db)).map gatherIds).flatten

/-- The spec's claimed invariant-violation test: some partial intent is
reachable through more than one path. -/
def hasDuplicateReachable (db : DB) (req : GroupCreate) : Bool :=
  !(reachableIds db req).Nodup

/-- The depth-1 occurrences the code actually examines: the direct list and
the direct member intents of each referenced group. -/
def depth1Ids (db : DB) (req : GroupCreate) : List Nat :=
  req.intents ++
    ((req.groups.filterMap (get_group db)).map (fun g => g.intents.map (fun p => p.id))).flatten



/-! ## Shape of the derived hash (spec 4.1) -/

def isLowerHexChar (c : Char) : Bool :=
  (48 ≤ c.toNat && c.toNat ≤ 57) || (97 ≤ c.toNat && c.toNat ≤ 102)

/-! ## Concrete fixtures used by witnesses and counterexamples -/

/-- A hostname-less ("common") stored partial intent. -/
def pCommon : PartialIntent :=
  { id := 10, hostname := none, netdrift_managed := false,
    config := some "<c><x>1</x></c>",
    config_hash := some (Sha256.sha256hex "<c><x>1</x></c>"),
    filter := some "<f><a/></f>",
    filter_hash := some (Sha256.sha256hex "<f><a></a></f>") }

def dbOnePartial : DB :=
  { fulls := [], parts := [pCommon], groups := [], diffs := [], intents := [], nextId := 100 }

/-- A hostname-scoped creation request with the same filter as `pCommon`. -/
def reqScoped : PartialCreate :=
  { hostname := some "r1", netdrift_managed := false,
    config := "<c><y>2</y></c>", filter := "<f><a/></f>" }

def groupInner : IntentGroup := .mk 1 "g1" none [pCommon] .nil

def groupOuter : IntentGroup := .mk 2 "g2" none [] (.cons groupInner .nil)

def dbNested : DB :=
  { fulls := [], parts := [pCommon], groups := [groupInner, groupOuter], diffs := [],
    intents := [], nextId := 100 }

/-- References `pCommon` directly and, at depth two, through `groupOuter`. -/
def reqNested : GroupCreate :=
  { label := "g3", hostname := none, intents := [10], groups := [2] }

/-- Direct depth-one duplicate: intent 10 appears in the request's own list and
as a direct member of the referenced group `groupInner`. -/
def reqDup1 : GroupCreate :=
  { label := "gdup", hostname := none, intents := [10], groups := [1] }


def intentFixture : Intent :=
  { id := 5, hostname := "r1", type := .part, filter := some "<f><a/></f>",
    config := some "<c><x>1</x></c>",
    config_hash := some (Sha256.sha256hex "<c><x>1</x></c>"),
    last_discovery_id := none, last_discovery_status := .unknown,
    last_discovery_message := none }

def dbIntent : DB :=
  { fulls := [], parts := [], groups := [], diffs := [], intents := [intentFixture], nextId := 7 }

def jobFixture : IntentJob :=
  { intent := intentFixture, auth := ⟨"u", "p"⟩, webhook := none }

/-- A fetched live tree whose canonical hash differs from the stored one. -/
def liveDrift : Node :=
  .elem "c" [] (.cons (.elem "x" [] (.cons (.text "2") .nil)) .nil)

/-- A fetched live tree canonically equal to the stored configuration. -/
def liveSame : Node :=
  .elem "c" [] (.cons (.elem "x" [] (.cons (.text "1") .nil)) .nil)

def eqDocA : Node :=
  .elem "a" [("y", "2"), ("x", "1")]
    (.cons (.text " hi ") (.cons (.elem "b" [] .nil) (.cons (.text " ") .nil)))

def eqDocB : Node :=
  .elem "a" [("x", "1"), ("y", "2")] (.cons (.text " hi") (.cons (.elem "b" [] .nil) .nil))

def docC6 : Node :=
  .elem "a" [("y", "2"), ("x", "1")]
    (.cons (.text " ") (.cons (.elem "b" [] (.cons (.text "hi") .nil)) (.cons (.text " ") .nil)))

/-- The canonicalizer contract of spec 4.1: parse, canonically serialize, hash
(the pipeline of `create_full_intent` / `create_partial_intent`). -/
def canonicalize (s : String) : Option (String × String) :=
  match validate_xml s with
  | none => none
  | some t => some (format_xml t, Sha256.sha256hex (format_xml t))

/-- Canonical hash of a creation request's filter document. -/
def requestFilterHash (req : PartialCreate) : String :=
  match validate_xml req.filter with
  | some t => Sha256.sha256hex (format_xml t)
  | none => ""


/-- A hostname-scoped copy of the common partial intent (same filter hash). -/
def pScoped : PartialIntent := { pCommon with id := 11, hostname := some "r1" }

def dbScoped : DB :=
  { fulls := [], parts := [pScoped], groups := [], diffs := [], intents := [], nextId := 100 }

/-- The parsed request documents, read back from the validator itself. -/
def cScopedNode : Node := (validate_xml reqScoped.config).getD (.text "")

def fScopedNode : Node := (validate_xml reqScoped.filter).getD (.text "")


def webhookFixture : Webhook := { url := "http://sink", body := "\x7b\x7d" }

def jobWebhook : IntentJob :=
  { intent := intentFixture, auth := ⟨"u", "p"⟩, webhook := some webhookFixture }

/-- `liveDrift` reparsed from its own canonical serialization. -/
def liveDriftTree : Node :=
  .elem "c" [] (.cons (.elem "x" [] (.cons (.text "2") .nil)) .nil)

/-- The stored intent configuration reparsed. -/
def intentTree : Node :=
  .elem "c" [] (.cons (.elem "x" [] (.cons (.text "1") .nil)) .nil)


def fullR9 : FullIntent :=
  { id := 30, hostname := "r9", netdrift_managed := false,
    config := some "<c><x>1</x></c>",
    config_hash := some (Sha256.sha256hex "<c><x>1</x></c>") }

def dbOneFull : DB :=
  { fulls := [fullR9], parts := [], groups := [], diffs := [], intents := [], nextId := 31 }

def reqFullR9 : FullCreate :=
  { hostname := "r9", netdrift_managed := false, config := "<c><y>2</y></c>" }

/-- A stored partial intent locked by `netdrift_managed = True`. -/
def pLocked : PartialIntent := { pCommon with netdrift_managed := true }

def fullLocked : FullIntent :=
  { id := 20, hostname := "r2", netdrift_managed := true,
    config := some "<c><x>1</x></c>",
    config_hash := some (Sha256.sha256hex "<c><x>1</x></c>") }

def dbLocked : DB :=
  { fulls := [fullLocked], parts := [pLocked], groups := [], diffs := [], intents := [],
    nextId := 40 }

/-- An update payload that omits `netdrift_managed` (pydantic default `False`)
and does not touch any locked field. -/
def pDefaultUpd : PartialUpdate :=
  { id := none, hostname := none, netdrift_managed := false, config := none, filter := none }

def fDefaultUpd : FullUpdate :=
  { id := none, hostname := none, netdrift_managed := false, config := none }

/-- The diff record the job persists when the device has drifted. -/
def diffRecord (db : DB) (job : IntentJob) (icfg : String) (liveT intentT : Node) : IntentDiff :=
  { id := db.nextId, intent_id := job.intent.id,
    diff := pyJoin "\n" (differCompare (pySplitlines (prettyXml liveT))
      (pySplitlines (prettyXml intentT))),
    intent := icfg }

theorem char_eq_of_toNat_eq {a b : Char} (h : a.toNat = b.toNat) : a = b := by
  have := congrArg Char.ofNat h
  rwa [Char.ofNat_toNat, Char.ofNat_toNat] at this

theorem str_eq_of_data_eq {s t : String} (h : s.data = t.data) : s = t := by
  cases s; cases t
  exact congrArg String.mk h

theorem strLtB_asymm : ∀ (a b : List Char), strLtB a b = true → strLtB b a = false
  | [], [] => by simp [strLtB]
  | [], _ :: _ => by simp [strLtB]
  | _ :: _, [] => by simp [strLtB]
  | a :: as, b :: bs => by
    intro h
    simp only [strLtB] at h ⊢
    by_cases h1 : a.toNat < b.toNat
    · have h2 : ¬ b.toNat < a.toNat := by omega
      simp [h1, h2]
    · by_cases h2 : b.toNat < a.toNat
      · simp [h1, h2] at h
      · simp [h1, h2] at h ⊢
        exact strLtB_asymm as bs h

theorem strLtB_conn :
    ∀ (a b : List Char), strLtB a b = false → strLtB b a = false → a = b
  | [], [] => by intros; rfl
  | [], _ :: _ => by intro h _; simp [strLtB] at h
  | _ :: _, [] => by intro _ h; simp [strLtB] at h
  | a :: as, b :: bs => by
    intro h h'
    simp only [strLtB] at h h'
    by_cases h1 : a.toNat < b.toNat
    · simp [h1] at h
    · by_cases h2 : b.toNat < a.toNat
      · simp [h1, h2] at h'
      · simp [h1, h2] at h h'
        have heq : a = b := char_eq_of_toNat_eq (by omega)
        rw [heq, strLtB_conn as bs h h']

theorem strLtB_trans :
    ∀ (a b c : List Char), strLtB a b = true → strLtB b c = true → strLtB a c = true
  | [], [], _ => by intro h; simp [strLtB] at h
  | [], _ :: _, [] => by intro _ h; simp [strLtB] at h
  | [], _ :: _, _ :: _ => by intros; simp [strLtB]
  | _ :: _, [], _ => by intro h; simp [strLtB] at h
  | _ :: _, _ :: _, [] => by intro _ h; simp [strLtB] at h
  | a :: as, b :: bs, c :: cs => by
    intro h h'
    simp only [strLtB] at h h' ⊢
    by_cases h1 : a.toNat < b.toNat
    · by_cases h2 : b.toNat < c.toNat
      · have h3 : a.toNat < c.toNat := by omega
        simp [h3]
      · by_cases h3 : c.toNat < b.toNat
        · simp [h2, h3] at h'
        · have h4 : a.toNat < c.toNat := by omega
          simp [h4]
    · by_cases h2 : b.toNat < a.toNat
      · simp [h1, h2] at h
      · simp [h1, h2] at h
        by_cases h3 : b.toNat < c.toNat
        · have h4 : a.toNat < c.toNat := by omega
          simp [h4]
        · by_cases h4 : c.toNat < b.toNat
          · simp [h3, h4] at h'
          · simp [h3, h4] at h'
            have e1 : ¬ a.toNat < c.toNat := by omega
            have e2 : ¬ c.toNat < a.toNat := by omega
            simp [e1, e2]
            exact strLtB_trans as bs cs h h'

theorem attrRel_total (a b : String × String) : attrRel a b ∨ attrRel b a := by
  unfold attrRel attrLeB strLeB
  by_cases h : a.1.data = b.1.data
  · rw [if_pos h, if_pos h.symm]
    cases hb : strLtB b.2.data a.2.data with
    | false => exact Or.inl (by simp [hb])
    | true => exact Or.inr (by simp [strLtB_asymm _ _ hb])
  · rw [if_neg h, if_neg (fun hh => h hh.symm)]
    cases hb : strLtB a.1.data b.1.data with
    | true => exact Or.inl rfl
    | false =>
      cases hb2 : strLtB b.1.data a.1.data with
      | true => exact Or.inr rfl
      | false => exact absurd (strLtB_conn _ _ hb hb2) h

theorem attrRel_trans {a b c : String × String}
    (hab : attrRel a b) (hbc : attrRel b c) : attrRel a c := by
  unfold attrRel attrLeB strLeB at hab hbc ⊢
  by_cases h1 : a.1.data = b.1.data
  · by_cases h2 : b.1.data = c.1.data
    · rw [if_pos h1] at hab
      rw [if_pos h2] at hbc
      rw [if_pos (h1.trans h2)]
      have hab' : strLtB b.2.data a.2.data = false := by simpa using hab
      have hbc' : strLtB c.2.data b.2.data = false := by simpa using hbc
      suffices hs : strLtB c.2.data a.2.data = false by simp [hs]
      cases hb : strLtB c.2.data a.2.data with
      | false => rfl
      | true =>
        exfalso
        cases x1 : strLtB a.2.data b.2.data with
        | false =>
          have hveq : a.2.data = b.2.data := strLtB_conn _ _ x1 hab'
          rw [hveq] at hb
          rw [hb] at hbc'
          exact Bool.noConfusion hbc'
        | true =>
          have hx := strLtB_trans _ _ _ hb x1
          rw [hx] at hbc'
          exact Bool.noConfusion hbc'
    · rw [if_pos h1] at hab
      rw [if_neg h2] at hbc
      rw [if_neg (fun hh => h2 (h1.symm.trans hh))]
      rw [h1]
      exact hbc
  · by_cases h2 : b.1.data = c.1.data
    · rw [if_neg h1] at hab
      rw [if_pos h2] at hbc
      rw [if_neg (fun hh => h1 (hh.trans h2.symm))]
      rw [← h2]
      exact hab
    · rw [if_neg h1] at hab
      rw [if_neg h2] at hbc
      by_cases h3 : a.1.data = c.1.data
      · exfalso
        have ht := strLtB_trans _ _ _ hab hbc
        rw [h3] at ht
        have t3 := strLtB_asymm _ _ ht
        rw [ht] at t3
        exact Bool.noConfusion t3
      · rw [if_neg h3]
        exact strLtB_trans _ _ _ hab hbc

theorem attrRel_antisymm {a b : String × String}
    (hab : attrRel a b) (hba : attrRel b a) : a = b := by
  unfold attrRel attrLeB strLeB at hab hba
  by_cases h1 : a.1.data = b.1.data
  · rw [if_pos h1] at hab
    rw [if_pos h1.symm] at hba
    have hab' : strLtB b.2.data a.2.data = false := by simpa using hab
    have hba' : strLtB a.2.data b.2.data = false := by simpa using hba
    have hv : a.2.data = b.2.data := strLtB_conn _ _ hba' hab'
    have e1 : a.1 = b.1 := str_eq_of_data_eq h1
    have e2 : a.2 = b.2 := str_eq_of_data_eq hv
    cases a; cases b
    simp_all
  · rw [if_neg h1] at hab
    rw [if_neg (fun hh => h1 hh.symm)] at hba
    have hf := strLtB_asymm _ _ hab
    rw [hf] at hba
    exact Bool.noConfusion hba

example :
    Sha256.sha256hex "abc"
      = "ba7816bf8f01cfea414140de5dae2223b00361a396177a9cb410ff61f20015ad" := by
  decide

example :
    Sha256.sha256hex ""
      = "e3b0c44298fc1c149afbf4c8996fb92427ae41e4649b934ca495991b7852b855" := by
  decide

/-! ## Determinism of the canonical form (spec 4.1 / testable property) -/

theorem sortAttrs_perm_eq {l1 l2 : List (String × String)} (h : l1.Perm l2) :
    sortAttrs l1 = sortAttrs l2 := by
  haveI : IsTotal (String × String) attrRel := ⟨attrRel_total⟩
  haveI : IsTrans (String × String) attrRel := ⟨fun _ _ _ => attrRel_trans⟩
  haveI : IsAntisymm (String × String) attrRel := ⟨fun _ _ => attrRel_antisymm⟩
  exact List.eq_of_perm_of_sorted
    ((List.perm_insertionSort attrRel l1).trans
      (h.trans (List.perm_insertionSort attrRel l2).symm))
    (List.sorted_insertionSort attrRel l1)
    (List.sorted_insertionSort attrRel l2)

theorem sortAttrs_idem (l : List (String × String)) :
    sortAttrs (sortAttrs l) = sortAttrs l := by
  haveI : IsTotal (String × String) attrRel := ⟨attrRel_total⟩
  haveI : IsTrans (String × String) attrRel := ⟨fun _ _ _ => attrRel_trans⟩
  haveI : IsAntisymm (String × String) attrRel := ⟨fun _ _ => attrRel_antisymm⟩
  exact List.eq_of_perm_of_sorted (List.perm_insertionSort attrRel (sortAttrs l))
    (List.sorted_insertionSort attrRel _) (List.sorted_insertionSort attrRel _)

mutual
theorem attrPermN_sortEq : ∀ (x y : Node), attrPermN x y = true → sortAttrsN x = sortAttrsN y
  | .text s1, .text s2, h => by
    simp only [attrPermN, decide_eq_true_eq] at h
    rw [h]
  | .elem n1 a1 c1, .elem n2 a2 c2, h => by
    simp only [attrPermN, Bool.and_eq_true, decide_eq_true_eq] at h
    obtain ⟨⟨hn, hp⟩, hc⟩ := h
    simp only [sortAttrsN]
    rw [hn, sortAttrs_perm_eq hp, attrPermL_sortEq c1 c2 hc]
  | .text _, .elem _ _ _, h => by simp [attrPermN] at h
  | .elem _ _ _, .text _, h => by simp [attrPermN] at h

theorem attrPermL_sortEq : ∀ (x y : NodeList), attrPermL x y = true → sortAttrsL x = sortAttrsL y
  | .nil, .nil, _ => rfl
  | .cons a r, .cons b s, h => by
    simp only [attrPermL, Bool.and_eq_true] at h
    simp only [sortAttrsL]
    rw [attrPermN_sortEq a b h.1, attrPermL_sortEq r s h.2]
  | .nil, .cons _ _, h => by simp [attrPermL] at h
  | .cons _ _, .nil, h => by simp [attrPermL] at h
end

/-- Equivalent documents have identical canonical serialization. -/
theorem equivDoc_format_eq {t1 t2 : Node} (h : equivDoc t1 t2 = true) :
    format_xml t1 = format_xml t2 := by
  unfold format_xml canonN
  rw [attrPermN_sortEq _ _ h]

/-! ## Idempotence of canonicalization at the tree level -/

theorem noLead_dropWhile (p : Char → Bool) : ∀ (l : List Char), noLead p (l.dropWhile p)
  | [] => trivial
  | c :: cs => by
    by_cases h : p c
    · rw [List.dropWhile_cons, if_pos h]
      exact noLead_dropWhile p cs
    · rw [List.dropWhile_cons, if_neg h]
      exact Bool.eq_false_iff.mpr h

theorem dropWhile_of_noLead {p : Char → Bool} {l : List Char} (h : noLead p l) :
    l.dropWhile p = l := by
  cases l with
  | nil => rfl
  | cons c cs =>
    have hc : p c = false := h
    rw [List.dropWhile_cons, if_neg (by simp [hc])]

theorem noLead_of_prefix {p : Char → Bool} {l1 l2 : List Char}
    (h : l1 <+: l2) (hn : noLead p l2) : noLead p l1 := by
  cases l1 with
  | nil => trivial
  | cons c cs =>
    obtain ⟨t, ht⟩ := h
    cases l2 with
    | nil => simp at ht
    | cons d ds =>
      have hc : c = d := by
        have := congrArg List.head? ht
        simpa using this
      subst hc
      exact hn

theorem noLead_trimChars (l : List Char) : noLead isSpaceChar (trimChars l) := by
  unfold trimChars
  have hsuf : (l.dropWhile isSpaceChar).reverse.dropWhile isSpaceChar
      <:+ (l.dropWhile isSpaceChar).reverse := List.dropWhile_suffix _
  have hpre : ((l.dropWhile isSpaceChar).reverse.dropWhile isSpaceChar).reverse
      <+: l.dropWhile isSpaceChar := by
    have h2 := List.reverse_prefix.mpr hsuf
    rwa [List.reverse_reverse] at h2
  exact noLead_of_prefix hpre (noLead_dropWhile _ l)

theorem noLead_trimChars_reverse (l : List Char) :
    noLead isSpaceChar (trimChars l).reverse := by
  unfold trimChars
  rw [List.reverse_reverse]
  exact noLead_dropWhile _ _

theorem trimChars_eq_self {l : List Char} (h1 : noLead isSpaceChar l)
    (h2 : noLead isSpaceChar l.reverse) : trimChars l = l := by
  unfold trimChars
  rw [dropWhile_of_noLead h1, dropWhile_of_noLead h2, List.reverse_reverse]

theorem trimChars_idem (l : List Char) : trimChars (trimChars l) = trimChars l :=
  trimChars_eq_self (noLead_trimChars l) (noLead_trimChars_reverse l)

theorem trimStr_idem (s : String) : trimStr (trimStr s) = trimStr s :=
  congrArg String.mk (trimChars_idem s.data)

mutual
theorem stripWsN_idem : ∀ t, stripWsN (stripWsN t) = stripWsN t
  | .text s => by simp [stripWsN, trimStr_idem]
  | .elem n a cs => by simp [stripWsN, stripWsL_idem cs]

theorem stripWsL_idem : ∀ cs, stripWsL (stripWsL cs) = stripWsL cs
  | .nil => rfl
  | .cons (.text s) r => by
    by_cases h : trimStr s = ""
    · simp [stripWsL, h, stripWsL_idem r]
    · have h2 := trimStr_idem s
      simp [stripWsL, h, h2, stripWsL_idem r]
  | .cons (.elem n a c) r => by
    simp [stripWsL, stripWsL_idem c, stripWsL_idem r]
end

mutual
theorem strip_sort_commN : ∀ t, stripWsN (sortAttrsN t) = sortAttrsN (stripWsN t)
  | .text s => rfl
  | .elem n a cs => by simp [stripWsN, sortAttrsN, strip_sort_commL cs]

theorem strip_sort_commL : ∀ cs, stripWsL (sortAttrsL cs) = sortAttrsL (stripWsL cs)
  | .nil => rfl
  | .cons (.text s) r => by
    by_cases h : trimStr s = ""
    · simp [stripWsL, sortAttrsL, sortAttrsN, h, strip_sort_commL r]
    · simp [stripWsL, sortAttrsL, sortAttrsN, h, strip_sort_commL r]
  | .cons (.elem n a c) r => by
    simp [stripWsL, sortAttrsL, sortAttrsN, strip_sort_commL c, strip_sort_commL r]
end

mutual
theorem sortAttrsN_idem : ∀ t, sortAttrsN (sortAttrsN t) = sortAttrsN t
  | .text s => rfl
  | .elem n a cs => by simp [sortAttrsN, sortAttrs_idem, sortAttrsL_idem cs]

theorem sortAttrsL_idem : ∀ cs, sortAttrsL (sortAttrsL cs) = sortAttrsL cs
  | .nil => rfl
  | .cons x r => by simp [sortAttrsL, sortAttrsN_idem x, sortAttrsL_idem r]
end

theorem canonN_idem (t : Node) : canonN (canonN t) = canonN t := by
  unfold canonN
  rw [strip_sort_commN (stripWsN t), stripWsN_idem t, sortAttrsN_idem]

/-! ## Parser round-trip on canonical output -/

theorem isSpaceChar_of_isNameChar {c : Char} (h : isNameChar c = true) :
    isSpaceChar c = false := by
  cases hsp : isSpaceChar c with
  | false => rfl
  | true =>
    exfalso
    unfold isSpaceChar at hsp
    rcases Bool.or_eq_true _ _ |>.mp hsp with h1 | h1
    · rcases Bool.or_eq_true _ _ |>.mp h1 with h2 | h2
      · rcases Bool.or_eq_true _ _ |>.mp h2 with h3 | h3
        · rw [decide_eq_true_eq] at h3; subst h3; simp [isNameChar] at h
        · rw [decide_eq_true_eq] at h3; subst h3; simp [isNameChar] at h
      · rw [decide_eq_true_eq] at h2; subst h2; simp [isNameChar] at h
    · rw [decide_eq_true_eq] at h1; subst h1; simp [isNameChar] at h

theorem skipWs_cons_of_not_space (c : Char) (l : List Char) (h : isSpaceChar c = false) :
    skipWs (c :: l) = c :: l := by
  unfold skipWs
  rw [List.dropWhile_cons, if_neg (by simp [h])]

theorem takeWhile_app {p : Char → Bool} :
    ∀ (l1 l2 : List Char), (∀ c ∈ l1, p c = true) → noLead p l2 →
      (l1 ++ l2).takeWhile p = l1
  | [], l2, _, h2 => by
    cases l2 with
    | nil => rfl
    | cons c cs =>
      have hc : p c = false := h2
      simp [List.takeWhile_cons, hc]
  | c :: cs, l2, h1, h2 => by
    have hc : p c = true := h1 c (by simp)
    simp only [List.cons_append, List.takeWhile_cons, hc, if_true]
    rw [takeWhile_app cs l2 (fun d hd => h1 d (by simp [hd])) h2]

theorem dropWhile_app {p : Char → Bool} :
    ∀ (l1 l2 : List Char), (∀ c ∈ l1, p c = true) → noLead p l2 →
      (l1 ++ l2).dropWhile p = l2
  | [], l2, _, h2 => dropWhile_of_noLead h2
  | c :: cs, l2, h1, h2 => by
    have hc : p c = true := h1 c (by simp)
    simp only [List.cons_append, List.dropWhile_cons, hc, if_true]
    exact dropWhile_app cs l2 (fun d hd => h1 d (by simp [hd])) h2

theorem parseName_app (n : String) (rest : List Char) (hok : okName n = true)
    (hr : noLead isNameChar rest) :
    parseName (n.data ++ rest) = some (n, rest) := by
  unfold okName at hok
  rcases Bool.and_eq_true _ _ |>.mp hok with ⟨hne, hall⟩
  have hall2 : ∀ c ∈ n.data, isNameChar c = true := fun c hc => List.all_eq_true.mp hall c hc
  unfold parseName
  rw [takeWhile_app n.data rest hall2 hr, dropWhile_app n.data rest hall2 hr]
  have hne2 : n.data.isEmpty = false := by simpa using hne
  simp [hne2]

theorem escTextL_clean :
    ∀ (l : List Char), l.all textCleanChar = true → escTextL l = l
  | [], _ => rfl
  | c :: cs, h => by
    rw [List.all_cons] at h
    rcases Bool.and_eq_true _ _ |>.mp h with ⟨hc, hcs⟩
    unfold textCleanChar at hc
    rcases Bool.and_eq_true _ _ |>.mp hc with ⟨hc1, hc3⟩
    rcases Bool.and_eq_true _ _ |>.mp hc1 with ⟨hlt, hamp⟩
    simp only [escTextL, List.map_cons, List.flatten_cons, escTextChar]
    rw [if_neg (by simpa using hamp), if_neg (by simpa using hlt), if_neg (by simpa using hc3)]
    have ih := escTextL_clean cs hcs
    unfold escTextL at ih
    simp [ih]

theorem escAttrL_clean :
    ∀ (l : List Char), l.all attrCleanChar = true → escAttrL l = l
  | [], _ => rfl
  | c :: cs, h => by
    rw [List.all_cons] at h
    rcases Bool.and_eq_true _ _ |>.mp h with ⟨hc, hcs⟩
    unfold attrCleanChar at hc
    rcases Bool.and_eq_true _ _ |>.mp hc with ⟨hc5, hcr⟩
    rcases Bool.and_eq_true _ _ |>.mp hc5 with ⟨hc4, hlf⟩
    rcases Bool.and_eq_true _ _ |>.mp hc4 with ⟨hc3, htab⟩
    rcases Bool.and_eq_true _ _ |>.mp hc3 with ⟨hlt, hquot⟩
    rcases Bool.and_eq_true _ _ |>.mp hlt with ⟨hlt2, hamp⟩
    simp only [escAttrL, List.map_cons, List.flatten_cons, escAttrChar]
    rw [if_neg (by simpa using hamp), if_neg (by simpa using hlt2),
      if_neg (by simpa using hquot), if_neg (by simpa using htab),
      if_neg (by simpa using hlf), if_neg (by simpa using hcr)]
    have ih := escAttrL_clean cs hcs
    unfold escAttrL at ih
    simp [ih]

theorem serAttrsC_cons (a : String × String) (as : List (String × String)) :
    serAttrsC (a :: as) = serAttrC a ++ serAttrsC as := by
  simp [serAttrsC]

theorem noLead_serAttrsC_gt (attrs : List (String × String)) (x : List Char) :
    noLead isNameChar (serAttrsC attrs ++ '>' :: x) := by
  cases attrs with
  | nil => exact (by decide : isNameChar '>' = false)
  | cons a as =>
    rw [serAttrsC_cons]
    simp only [serAttrC, List.cons_append]
    exact (by decide : isNameChar ' ' = false)

theorem serAttrsC_length_ge :
    ∀ (attrs : List (String × String)), attrs.length ≤ (serAttrsC attrs).length
  | [] => by simp [serAttrsC]
  | a :: as => by
    rw [serAttrsC_cons]
    have ih := serAttrsC_length_ge as
    simp only [List.length_append, List.length_cons, serAttrC]
    omega

theorem parseAttrs_ser :
    ∀ (attrs : List (String × String)) (fuel : Nat) (rest : List Char),
      attrs.length < fuel → attrs.all okAttr = true →
      noLead isSpaceChar rest → noLead isNameChar rest →
      parseAttrs fuel (serAttrsC attrs ++ rest) = some (attrs, rest)
  | [], fuel, rest, hf, _, hsp, hnm => by
    cases fuel with
    | zero => omega
    | succ f =>
      have hskip : skipWs (serAttrsC [] ++ rest) = rest := by
        simp only [serAttrsC, List.map_nil, List.flatten_nil, List.nil_append]
        exact dropWhile_of_noLead hsp
      simp only [parseAttrs, hskip]
      cases rest with
      | nil => rfl
      | cons c cs =>
        have hc : isNameChar c = false := hnm
        simp [hc]
  | a :: as, fuel, rest, hf, hok, hsp, hnm => by
    cases fuel with
    | zero => omega
    | succ f =>
      rw [List.all_cons] at hok
      rcases Bool.and_eq_true _ _ |>.mp hok with ⟨hA, hAs⟩
      rcases Bool.and_eq_true _ _ |>.mp hA with ⟨hname, hval⟩
      have hvclean := escAttrL_clean a.2.data hval
      have hne : a.1.data.isEmpty = false := by
        unfold okName at hname
        rcases Bool.and_eq_true _ _ |>.mp hname with ⟨hne1, _⟩
        simpa using hne1
      have hallname : ∀ c ∈ a.1.data, isNameChar c = true := by
        unfold okName at hname
        rcases Bool.and_eq_true _ _ |>.mp hname with ⟨_, h2⟩
        exact fun c hc => List.all_eq_true.mp h2 c hc
      rw [serAttrsC_cons]
      simp only [serAttrC, List.cons_append, List.append_assoc, List.nil_append]
      unfold parseAttrs
      obtain ⟨c0, cs0, hd⟩ : ∃ c cs, a.1.data = c :: cs := by
        cases hx : a.1.data with
        | nil => rw [hx] at hne; simp at hne
        | cons c cs => exact ⟨c, cs, rfl⟩
      have hc0 : isNameChar c0 = true := hallname c0 (by rw [hd]; simp)
      have hskip1 : skipWs (' ' :: (a.1.data ++ ('=' :: '"' ::
          (escAttrL a.2.data ++ '"' :: (serAttrsC as ++ rest))))) =
          a.1.data ++ ('=' :: '"' :: (escAttrL a.2.data ++ '"' :: (serAttrsC as ++ rest))) := by
        unfold skipWs
        rw [List.dropWhile_cons, if_pos (by decide)]
        apply dropWhile_of_noLead
        rw [hd]
        exact isSpaceChar_of_isNameChar hc0
      rw [hskip1]
      have hpn := parseName_app a.1
        ('=' :: '"' :: (escAttrL a.2.data ++ '"' :: (serAttrsC as ++ rest)))
        hname (by exact (by decide : isNameChar '=' = false))
      rw [hd] at hpn ⊢
      simp only [List.cons_append] at hpn ⊢
      rw [if_pos hc0, hpn]
      simp only []
      rw [skipWs_cons_of_not_space '=' _ (by decide)]
      simp only []
      rw [skipWs_cons_of_not_space '"' _ (by decide)]
      have hvall : ∀ d ∈ escAttrL a.2.data, (fun d => !(d = '"')) d = true := by
        rw [hvclean]
        intro d hdmem
        have hmem := List.all_eq_true.mp hval d hdmem
        unfold attrCleanChar at hmem
        rcases Bool.and_eq_true _ _ |>.mp hmem with ⟨hm5, _⟩
        rcases Bool.and_eq_true _ _ |>.mp hm5 with ⟨hm4, _⟩
        rcases Bool.and_eq_true _ _ |>.mp hm4 with ⟨hm3, _⟩
        rcases Bool.and_eq_true _ _ |>.mp hm3 with ⟨_, hq⟩
        simpa using hq
      have hnl2 : noLead (fun d => !(d = '"')) ('"' :: (serAttrsC as ++ rest)) :=
        (by decide : (!(decide (('"' : Char) = '"'))) = false)
      have htk := takeWhile_app _ _ hvall hnl2
      have hdr := dropWhile_app _ _ hvall hnl2
      have hrec := parseAttrs_ser as f rest
        (by simp only [List.length_cons] at hf; omega) hAs hsp hnm
      rw [hvclean] at htk hdr
      simp only [hvclean, htk, hdr, hrec, Prod.mk.eta]

theorem noLead_lt_serNodes (r : NodeList) (r2 : List Char) (hnt : headNotText r = true) :
    noLead (fun d => !(d = '<')) (serNodesC r ++ '<' :: '/' :: r2) := by
  cases r with
  | nil => exact (by decide : (!(decide (('<' : Char) = '<'))) = false)
  | cons x rr =>
    cases x with
    | text s => simp [headNotText] at hnt
    | elem n a c =>
      simp only [serNodesC, serNodeC, List.cons_append, List.append_assoc]
      exact (by decide : (!(decide (('<' : Char) = '<'))) = false)

theorem okName_shape {n : String} (h : okName n = true) :
    ∃ c cs, n.data = c :: cs ∧ isNameChar c = true := by
  unfold okName at h
  rcases Bool.and_eq_true _ _ |>.mp h with ⟨hne, hall⟩
  cases hx : n.data with
  | nil => rw [hx] at hne; simp at hne
  | cons c cs =>
    refine ⟨c, cs, rfl, ?_⟩
    have := List.all_eq_true.mp hall c (by rw [hx]; simp)
    exact this

theorem serNodeC_pos : ∀ (x : Node), wfN x = true → 1 ≤ (serNodeC x).length
  | .text s, h => by
    simp only [wfN, okText] at h
    rcases Bool.and_eq_true _ _ |>.mp h with ⟨hne, hall⟩
    simp only [serNodeC]
    rw [escTextL_clean s.data hall]
    cases hx : s.data with
    | nil => rw [hx] at hne; simp at hne
    | cons c cs => simp
  | .elem n a cs, _ => by simp [serNodeC]

mutual
theorem sizeN_le_lenN : ∀ (t : Node), wfN t = true → sizeN t ≤ (serNodeC t).length
  | .text s, h => by
    simp only [sizeN]
    exact serNodeC_pos (.text s) h
  | .elem n attrs cs, h => by
    simp only [wfN] at h
    rcases Bool.and_eq_true _ _ |>.mp h with ⟨h1, hcs⟩
    rcases Bool.and_eq_true _ _ |>.mp h1 with ⟨hname, _⟩
    obtain ⟨c0, cs0, hd, _⟩ := okName_shape hname
    have ih := sizeL_le_lenL cs hcs
    simp only [sizeN, serNodeC, List.length_cons, List.length_append]
    rw [hd]
    simp only [List.length_cons]
    omega

theorem sizeL_le_lenL : ∀ (cs : NodeList), wfL cs = true → sizeL cs ≤ (serNodesC cs).length + 1
  | .nil, _ => by simp [sizeL, serNodesC]
  | .cons (.text s) r, h => by
    simp only [wfL] at h
    rcases Bool.and_eq_true _ _ |>.mp h with ⟨h1, hr⟩
    rcases Bool.and_eq_true _ _ |>.mp h1 with ⟨hs, _⟩
    have ihn : sizeN (.text s) ≤ (serNodeC (.text s)).length :=
      sizeN_le_lenN (.text s) (by simp [wfN, hs])
    have ihr := sizeL_le_lenL r hr
    have hpos := serNodeC_pos (.text s) (by simp [wfN, hs])
    simp only [sizeL, serNodesC, List.length_append]
    have hmax : max (sizeN (.text s)) (sizeL r) ≤
        (serNodeC (.text s)).length + (serNodesC r).length :=
      Nat.max_le.mpr ⟨by omega, by omega⟩
    omega
  | .cons (.elem n a c) r, h => by
    simp only [wfL] at h
    rcases Bool.and_eq_true _ _ |>.mp h with ⟨hx, hr⟩
    have ihn := sizeN_le_lenN (.elem n a c) hx
    have ihr := sizeL_le_lenL r hr
    have hpos := serNodeC_pos (.elem n a c) hx
    simp only [sizeL, serNodesC, List.length_append]
    have hmax : max (sizeN (.elem n a c)) (sizeL r) ≤
        (serNodeC (.elem n a c)).length + (serNodesC r).length :=
      Nat.max_le.mpr ⟨by omega, by omega⟩
    omega
end

mutual
theorem parseElem_ser :
    ∀ (fuel : Nat) (n : String) (attrs : List (String × String)) (cs : NodeList)
      (rest : List Char),
      sizeN (.elem n attrs cs) ≤ fuel → wfN (.elem n attrs cs) = true →
      parseElem fuel (serNodeC (.elem n attrs cs) ++ rest) = some (.elem n attrs cs, rest)
  | 0, n, attrs, cs, rest, hsize, _ => by
    exfalso
    simp only [sizeN] at hsize
    omega
  | fuel + 1, n, attrs, cs, rest, hsize, hwf => by
    simp only [wfN] at hwf
    rcases Bool.and_eq_true _ _ |>.mp hwf with ⟨h1, hcs⟩
    rcases Bool.and_eq_true _ _ |>.mp h1 with ⟨hname, hattrs⟩
    have hsz : sizeL cs ≤ fuel := by
      simp only [sizeN] at hsize
      omega
    simp only [serNodeC, List.cons_append, List.append_assoc, List.nil_append]
    simp only [parseElem]
    rw [parseName_app n (serAttrsC attrs ++ '>' ::
        (serNodesC cs ++ '<' :: '/' :: (n.data ++ '>' :: rest))) hname
      (noLead_serAttrsC_gt attrs _)]
    simp only []
    rw [parseAttrs_ser attrs _ ('>' :: (serNodesC cs ++ '<' :: '/' :: (n.data ++ '>' :: rest)))
      (by
        have := serAttrsC_length_ge attrs
        simp only [List.length_append]
        omega)
      hattrs
      (by exact (by decide : isSpaceChar '>' = false))
      (by exact (by decide : isNameChar '>' = false))]
    simp only []
    rw [parseContent_ser fuel cs (n.data ++ '>' :: rest) hsz hcs]
    simp only []
    rw [parseName_app n ('>' :: rest) hname (by exact (by decide : isNameChar '>' = false))]
    simp only []
    rw [if_pos trivial, skipWs_cons_of_not_space '>' _ (by decide)]
    rfl

theorem parseContent_ser :
    ∀ (fuel : Nat) (cs : NodeList) (r2 : List Char),
      sizeL cs ≤ fuel → wfL cs = true →
      parseContent fuel (serNodesC cs ++ '<' :: '/' :: r2) = some (cs, '<' :: '/' :: r2)
  | 0, cs, r2, hsize, _ => by
    exfalso
    cases cs with
    | nil => simp [sizeL] at hsize
    | cons x r => simp [sizeL] at hsize
  | fuel + 1, .nil, r2, _, _ => by
    simp only [serNodesC, List.nil_append]
    simp [parseContent]
  | fuel + 1, .cons (.text s) r, r2, hsize, hwf => by
    simp only [wfL] at hwf
    rcases Bool.and_eq_true _ _ |>.mp hwf with ⟨h1, hr⟩
    rcases Bool.and_eq_true _ _ |>.mp h1 with ⟨hs, hnt⟩
    have hszr : sizeL r ≤ fuel := by
      simp only [sizeL] at hsize
      have hm : sizeL r ≤ max (sizeN (.text s)) (sizeL r) := Nat.le_max_right _ _
      omega
    unfold okText at hs
    rcases Bool.and_eq_true _ _ |>.mp hs with ⟨hne, hall⟩
    have hclean := escTextL_clean s.data hall
    obtain ⟨c0, cs0, hd⟩ : ∃ c cs, s.data = c :: cs := by
      cases hx : s.data with
      | nil => rw [hx] at hne; simp at hne
      | cons c cs => exact ⟨c, cs, rfl⟩
    have hc0 : textCleanChar c0 = true :=
      List.all_eq_true.mp hall c0 (by rw [hd]; simp)
    have hc0ne : ¬ (c0 = '<') := by
      intro hcontra
      rw [hcontra] at hc0
      simp [textCleanChar] at hc0
    have hall2 : ∀ d ∈ s.data, (fun d => !(d = '<')) d = true := by
      intro d hdm
      have := List.all_eq_true.mp hall d hdm
      unfold textCleanChar at this
      rcases Bool.and_eq_true _ _ |>.mp this with ⟨h2, _⟩
      rcases Bool.and_eq_true _ _ |>.mp h2 with ⟨hlt, _⟩
      simpa using hlt
    have hnlZ := noLead_lt_serNodes r r2 hnt
    have htk := takeWhile_app s.data (serNodesC r ++ '<' :: '/' :: r2) hall2 hnlZ
    have hdrp := dropWhile_app s.data (serNodesC r ++ '<' :: '/' :: r2) hall2 hnlZ
    rw [hd] at htk hdrp
    simp only [List.cons_append] at htk hdrp
    simp only [serNodesC, serNodeC, List.append_assoc]
    rw [hclean, hd]
    simp only [List.cons_append]
    simp only [parseContent]
    rw [if_neg hc0ne]
    rw [htk, hdrp]
    rw [parseContent_ser fuel r r2 hszr hr]
    simp only []
    rw [← hd]
  | fuel + 1, .cons (.elem n a c) r, r2, hsize, hwf => by
    simp only [wfL] at hwf
    rcases Bool.and_eq_true _ _ |>.mp hwf with ⟨hx, hr⟩
    have hszE : sizeN (.elem n a c) ≤ fuel := by
      simp only [sizeL] at hsize
      have hm : sizeN (.elem n a c) ≤ max (sizeN (.elem n a c)) (sizeL r) := Nat.le_max_left _ _
      omega
    have hszR : sizeL r ≤ fuel := by
      simp only [sizeL] at hsize
      have hm : sizeL r ≤ max (sizeN (.elem n a c)) (sizeL r) := Nat.le_max_right _ _
      omega
    have hnameE : okName n = true := by
      simp only [wfN] at hx
      rcases Bool.and_eq_true _ _ |>.mp hx with ⟨h1, _⟩
      rcases Bool.and_eq_true _ _ |>.mp h1 with ⟨hn, _⟩
      exact hn
    obtain ⟨c0, cs0, hd, hc0⟩ := okName_shape hnameE
    have hc0ne : ¬ (c0 = '/') := by
      intro hcontra
      rw [hcontra] at hc0
      simp [isNameChar] at hc0
    have hpe := parseElem_ser fuel n a c (serNodesC r ++ '<' :: '/' :: r2) hszE hx
    simp only [serNodeC, List.cons_append, List.append_assoc, List.nil_append] at hpe
    rw [hd] at hpe
    simp only [List.cons_append] at hpe
    simp only [serNodesC, serNodeC, List.cons_append, List.append_assoc, List.nil_append]
    rw [hd]
    simp only [List.cons_append]
    simp only [parseContent]
    rw [if_pos trivial]
    rw [if_neg (by simp [hc0ne])]
    rw [hpe]
    simp only []
    rw [parseContent_ser fuel r r2 hszR hr]

end

theorem validate_xml_ser (s : String) (n : String) (attrs : List (String × String))
    (cs : NodeList) (hs : s.data = serNodeC (.elem n attrs cs))
    (hwf : wfN (.elem n attrs cs) = true) :
    validate_xml s = some (.elem n attrs cs) := by
  have hfuel : sizeN (.elem n attrs cs) ≤ (serNodeC (.elem n attrs cs)).length + 1 := by
    have := sizeN_le_lenN (.elem n attrs cs) hwf
    omega
  have hpe := parseElem_ser ((serNodeC (.elem n attrs cs)).length + 1) n attrs cs [] hfuel hwf
  rw [List.append_nil] at hpe
  have hskip : skipWs (serNodeC (.elem n attrs cs)) = serNodeC (.elem n attrs cs) := by
    simp only [serNodeC, List.cons_append]
    exact skipWs_cons_of_not_space '<' _ (by decide)
  unfold validate_xml
  rw [hs]
  simp only [hskip, hpe]
  simp [skipWs]

theorem parseElem_elem :
    ∀ (fuel : Nat) (cs : List Char) (nd : Node) (r : List Char),
      parseElem fuel cs = some (nd, r) → isElemB nd = true
  | 0, cs, nd, r => by simp [parseElem]
  | fuel + 1, cs, nd, r => by
    intro h
    simp only [parseElem] at h
    repeat' split at h
    all_goals first
      | exact Option.noConfusion h
      | (rw [Option.some.injEq, Prod.mk.injEq] at h
         obtain ⟨h1, _⟩ := h
         rw [← h1]
         rfl)

theorem validate_elem (x : String) (t : Node) (h : validate_xml x = some t) :
    isElemB t = true := by
  unfold validate_xml at h
  split at h
  · split at h
    · rename_i nd rest heq _
      cases h
      exact parseElem_elem _ _ _ _ heq
    · cases h
  · cases h

theorem isElemB_canonN (t : Node) : isElemB (canonN t) = isElemB t := by
  cases t <;> rfl

/-- Feeding the canonical output back through parse and canonical serialization
returns the same canonical bytes. -/
theorem format_xml_roundtrip (x : String) (t : Node) (hparse : validate_xml x = some t)
    (hwf : wfN (canonN t) = true) :
    validate_xml (format_xml t) = some (canonN t) ∧
      (validate_xml (format_xml t)).map format_xml = some (format_xml t) := by
  have helem : isElemB t = true := validate_elem x t hparse
  have helem2 : isElemB (canonN t) = true := by rw [isElemB_canonN]; exact helem
  obtain ⟨n, attrs, cs, hshape⟩ : ∃ n attrs cs, canonN t = .elem n attrs cs := by
    cases hc : canonN t with
    | text s => rw [hc] at helem2; simp [isElemB] at helem2
    | elem n a c => exact ⟨n, a, c, rfl⟩
  have hv : validate_xml (format_xml t) = some (canonN t) := by
    rw [hshape]
    exact validate_xml_ser (format_xml t) n attrs cs
      (by rw [show (format_xml t).data = serNodeC (canonN t) from rfl, hshape])
      (by rw [← hshape]; exact hwf)
  refine ⟨hv, ?_⟩
  rw [hv]
  show some (format_xml (canonN t)) = some (format_xml t)
  unfold format_xml
  rw [canonN_idem]

section Tests

example :
    validate_xml "<a y=\"2\" x=\"1\"> <b>hi</b> </a>"
      = some (.elem "a" [("y", "2"), ("x", "1")]
          (.cons (.text " ")
            (.cons (.elem "b" [] (.cons (.text "hi") .nil)) (.cons (.text " ") .nil)))) := by
  decide

example :
    format_xml (.elem "a" [("y", "2"), ("x", "1")]
        (.cons (.text " ")
          (.cons (.elem "b" [] (.cons (.text "hi") .nil)) (.cons (.text " ") .nil))))
      = "<a x=\"1\" y=\"2\"><b>hi</b></a>" := by
  decide

example :
    (validate_xml "<a x=\"1\" y=\"2\"><b>hi</b></a>").map format_xml
      = some "<a x=\"1\" y=\"2\"><b>hi</b></a>" := by
  decide

example :
    equivDoc
      (.elem "a" [("y", "2"), ("x", "1")] (.cons (.text " ") .nil))
      (.elem "a" [("x", "1"), ("y", "2")] .nil) = true := by
  decide

end Tests

theorem hexDigitChar_lower (n : Nat) : isLowerHexChar (Sha256.hexDigitChar n) = true := by
  unfold Sha256.hexDigitChar
  have h : n % 16 < 16 := Nat.mod_lt _ (by norm_num)
  generalize n % 16 = m at *
  interval_cases m <;> decide

theorem sha256_length (msg : List Nat) : (Sha256.sha256 msg).length = 32 := by
  simp [Sha256.sha256, Sha256.wordBytes]

theorem flatten_byteHex_length :
    ∀ (bs : List Nat), ((bs.map Sha256.byteHex).flatten).length = 2 * bs.length
  | [] => rfl
  | b :: bs => by
    simp only [List.map_cons, List.flatten_cons, List.length_append,
      flatten_byteHex_length bs, Sha256.byteHex, List.length_cons, List.length_nil,
      List.length_cons]
    omega

theorem sha256hex_length (s : String) : (Sha256.sha256hex s).length = 64 := by
  unfold Sha256.sha256hex Sha256.hexdigest
  show ((Sha256.sha256 (Sha256.strBytes s)).map Sha256.byteHex).flatten.length = 64
  rw [flatten_byteHex_length, sha256_length]

theorem sha256hex_lower (s : String) :
    ∀ c ∈ (Sha256.sha256hex s).data, isLowerHexChar c = true := by
  intro c hc
  unfold Sha256.sha256hex Sha256.hexdigest at hc
  have hc2 : c ∈ ((Sha256.sha256 (Sha256.strBytes s)).map Sha256.byteHex).flatten := hc
  rw [List.mem_flatten] at hc2
  obtain ⟨l, hl, hcl⟩ := hc2
  rw [List.mem_map] at hl
  obtain ⟨b, _, hb⟩ := hl
  rw [← hb] at hcl
  unfold Sha256.byteHex at hcl
  rcases List.mem_cons.mp hcl with h | h2
  · rw [h]
    exact hexDigitChar_lower _
  · rcases List.mem_cons.mp h2 with h | h3
    · rw [h]
      exact hexDigitChar_lower _
    · simp at h3

/-! ## Worker job runs -/

theorem str_ne_empty_of_data {s : String} (h : s.data ≠ []) : s ≠ "" := by
  intro hc
  rw [hc] at h
  exact h rfl

theorem splitOnChar_ne_nil (c : Char) : ∀ (l : List Char), splitOnChar c l ≠ []
  | [] => by simp [splitOnChar]
  | d :: rest => by
    unfold splitOnChar
    by_cases h : d = c
    · simp [h]
    · simp only [h, if_false]
      cases hs : splitOnChar c rest <;> simp

theorem pySplitlines_ne_nil {s : String} (h : s.data ≠ []) : pySplitlines s ≠ [] := by
  unfold pySplitlines
  rw [if_neg h]
  simp [splitOnChar_ne_nil]

theorem pyJoin_data (sep : String) (x : String) (xs : List String) :
    ∃ r, (pyJoin sep (x :: xs)).data = x.data ++ r := by
  cases xs with
  | nil => exact ⟨[], by simp [pyJoin]⟩
  | cons y ys =>
    refine ⟨sep.data ++ (pyJoin sep (y :: ys)).data, ?_⟩
    show ((x ++ sep ++ pyJoin sep (y :: ys))).data = x.data ++ (sep.data ++ _)
    show (x.data ++ sep.data) ++ (pyJoin sep (y :: ys)).data = _
    rw [List.append_assoc]

theorem prettyXml_ne_empty (t : Node) (helem : isElemB t = true) :
    (prettyXml t).data ≠ [] := by
  cases t with
  | text s => simp [isElemB] at helem
  | elem n attrs cs =>
    unfold prettyXml prettyN
    cases cs with
    | nil =>
      show (pyJoin "\n" ["<" ++ n ++ "/>"]).data ≠ []
      show ('<' :: (n.data ++ "/>".data)) ≠ []
      exact fun hc => List.noConfusion hc
    | cons x r =>
      obtain ⟨rr, hrr⟩ := pyJoin_data "\n" ("<" ++ n ++ ">")
        (prettyL (.cons x r) ++ ["</" ++ n ++ ">"])
      show (pyJoin "\n" (("<" ++ n ++ ">") :: (prettyL (.cons x r) ++ ["</" ++ n ++ ">"]))).data ≠ []
      rw [hrr]
      exact fun hc => List.noConfusion hc

theorem diff_str_ne_empty (intent : List String) (l0 : String) (ls : List String) :
    (pyJoin "\n" (differCompare (l0 :: ls) intent)).data ≠ [] := by
  unfold differCompare
  by_cases h : l0 :: ls = intent
  · rw [if_pos h]
    simp only [List.map_cons]
    obtain ⟨r, hr⟩ := pyJoin_data "\n" ("  " ++ l0) (List.map (fun l => "  " ++ l) ls)
    rw [hr]
    exact fun hc => List.noConfusion hc
  · rw [if_neg h]
    simp only [List.map_cons, List.cons_append]
    obtain ⟨r, hr⟩ := pyJoin_data "\n" ("- " ++ l0)
      (List.map (fun l => "- " ++ l) ls ++ List.map (fun l => "+ " ++ l) intent)
    rw [hr]
    exact fun hc => List.noConfusion hc

theorem intent_diff_job_sync (db : DB) (job : IntentJob) (data : Node) (ws : Nat)
    (fv : String) (hfv : job.intent.filter = some fv)
    (heq : some (Sha256.sha256hex (format_xml data)) = job.intent.config_hash) :
    intent_diff_job db job (.ok data) ws = ⟨db, none⟩ := by
  unfold intent_diff_job
  simp only []
  rw [hfv]
  simp only [Option.isNone_some, Bool.false_eq_true, if_false]
  rw [if_pos heq]

theorem intent_diff_job_drift (db : DB) (job : IntentJob) (data : Node) (ws : Nat)
    (fv icfg : String) (liveT intentT : Node)
    (hfv : job.intent.filter = some fv)
    (hne : ¬ (some (Sha256.sha256hex (format_xml data)) = job.intent.config_hash))
    (hic : job.intent.config = some icfg)
    (hl : validate_xml (format_xml data) = some liveT)
    (hi : validate_xml icfg = some intentT) :
    intent_diff_job db job (.ok data) ws =
      ⟨({ db with
          diffs := db.diffs ++ [diffRecord db job icfg liveT intentT],
          nextId := db.nextId + 1 }),
        (match job.webhook with
          | none => none
          | some _ => if ws = 200 then none else some PyError.assertionError)⟩ := by
  unfold intent_diff_job
  simp only []
  rw [hfv]
  simp only [Option.isNone_some, Bool.false_eq_true, if_false]
  rw [if_neg hne, hic]
  simp only []
  rw [hl, hi]
  simp only []
  cases hwb : job.webhook with
  | none => rfl
  | some w =>
    simp only []
    unfold send_intent_diff_webhook
    by_cases hst : ws = 200
    · subst hst
      rfl
    · rw [if_neg hst, if_neg hst]
      rfl

/-- C1: on a transport failure neither job records anything on the intent —
`create_intent` returns from the error handler before the database write and
`intent_diff` escapes with the unbound-variable error — so the intent's
discovery-status fields keep their previous values and no `IntentDiff`
appears, where the spec requires `last_discovery_status = failed` with a
non-empty message. -/
theorem c1_transport_failure_unrecorded (db : DB) (job : IntentJob) (msg : String)
    (ws : Nat) (fv : String) (hfv : job.intent.filter = some fv) :
    create_intent_job db job (.error msg) = db ∧
    intent_diff_job db job (.error msg) ws = ⟨db, some .nameError⟩ := by
  refine ⟨rfl, ?_⟩
  unfold intent_diff_job
  simp only []
  rw [hfv]
  simp only [Option.isNone_some, Bool.false_eq_true, if_false]

theorem c1_transport_failure_unrecorded_witness :
    jobFixture.intent.filter = some "<f><a/></f>" ∧
    (create_intent_job dbIntent jobFixture (.error "conn refused") = dbIntent ∧
      intent_diff_job dbIntent jobFixture (.error "conn refused") 200
        = ⟨dbIntent, some .nameError⟩) :=
  ⟨by decide, c1_transport_failure_unrecorded dbIntent jobFixture "conn refused" 200
    "<f><a/></f>" (by decide)⟩

/-- C4: with a successful fetch, equal canonical hashes produce no `IntentDiff`
and leave the database untouched; different hashes produce exactly one
`IntentDiff` whose non-empty body is the line diff of the pretty-printed live
configuration (first) against the pretty-printed stored intent (second), and
the intent records are unchanged either way. -/
theorem c4_diff_job_hash_compare (db : DB) (job : IntentJob) (data : Node) (ws : Nat)
    (fv : String) (hfv : job.intent.filter = some fv) :
    (some (Sha256.sha256hex (format_xml data)) = job.intent.config_hash →
      intent_diff_job db job (.ok data) ws = ⟨db, none⟩) ∧
    (∀ icfg liveT intentT,
      ¬ (some (Sha256.sha256hex (format_xml data)) = job.intent.config_hash) →
      job.intent.config = some icfg →
      validate_xml (format_xml data) = some liveT →
      validate_xml icfg = some intentT →
      (intent_diff_job db job (.ok data) ws).db.diffs
          = db.diffs ++ [diffRecord db job icfg liveT intentT] ∧
        (intent_diff_job db job (.ok data) ws).db.intents = db.intents ∧
        (diffRecord db job icfg liveT intentT).diff
          = pyJoin "\n" (differCompare (pySplitlines (prettyXml liveT))
              (pySplitlines (prettyXml intentT))) ∧
        (diffRecord db job icfg liveT intentT).diff ≠ "") := by
  constructor
  · intro heq
    exact intent_diff_job_sync db job data ws fv hfv heq
  · intro icfg liveT intentT hne hic hl hi
    have hrun := intent_diff_job_drift db job data ws fv icfg liveT intentT hfv hne hic hl hi
    rw [hrun]
    refine ⟨rfl, rfl, rfl, ?_⟩
    have helem : isElemB liveT = true := validate_elem _ _ hl
    obtain ⟨l0, ls, hsplit⟩ : ∃ l0 ls, pySplitlines (prettyXml liveT) = l0 :: ls := by
      cases hcase : pySplitlines (prettyXml liveT) with
      | nil => exact absurd hcase (pySplitlines_ne_nil (prettyXml_ne_empty liveT helem))
      | cons a b => exact ⟨a, b, rfl⟩
    apply str_ne_empty_of_data
    show (pyJoin "\n" (differCompare (pySplitlines (prettyXml liveT))
      (pySplitlines (prettyXml intentT)))).data ≠ []
    rw [hsplit]
    exact diff_str_ne_empty _ l0 ls

theorem c4_diff_job_hash_compare_witness :
    jobFixture.intent.filter = some "<f><a/></f>" ∧
    ((some (Sha256.sha256hex (format_xml liveSame)) = jobFixture.intent.config_hash →
        intent_diff_job dbIntent jobFixture (.ok liveSame) 200 = ⟨dbIntent, none⟩) ∧
      (∀ icfg liveT intentT,
        ¬ (some (Sha256.sha256hex (format_xml liveSame)) = jobFixture.intent.config_hash) →
        jobFixture.intent.config = some icfg →
        validate_xml (format_xml liveSame) = some liveT →
        validate_xml icfg = some intentT →
        (intent_diff_job dbIntent jobFixture (.ok liveSame) 200).db.diffs
            = dbIntent.diffs ++ [diffRecord dbIntent jobFixture icfg liveT intentT] ∧
          (intent_diff_job dbIntent jobFixture (.ok liveSame) 200).db.intents
            = dbIntent.intents ∧
          (diffRecord dbIntent jobFixture icfg liveT intentT).diff
            = pyJoin "\n" (differCompare (pySplitlines (prettyXml liveT))
                (pySplitlines (prettyXml intentT))) ∧
          (diffRecord dbIntent jobFixture icfg liveT intentT).diff ≠ "")) :=
  ⟨by decide, c4_diff_job_hash_compare dbIntent jobFixture liveSame 200 "<f><a/></f>" (by decide)⟩

/-- C8 counterexample: a 201 response is a 200-class success by the claim, but
the notifier judges it a failure (`assert resp.status == 200`). -/
theorem c8_counterexample :
    (200 ≤ 201 ∧ 201 < 300) ∧
      send_intent_diff_webhook 201 = .error .assertionError := by
  decide

/-- C8 amended: delivery is judged successful exactly when the response status
is 200, and a failed delivery surfaces as an assertion error only after the
`IntentDiff` has been persisted — the record is not rolled back. -/
theorem c8_webhook_success_only_200 (status : Nat) (db : DB) (job : IntentJob)
    (data : Node) (ws : Nat) (fv icfg : String) (liveT intentT : Node) (w : Webhook)
    (hfv : job.intent.filter = some fv)
    (hne : ¬ (some (Sha256.sha256hex (format_xml data)) = job.intent.config_hash))
    (hic : job.intent.config = some icfg)
    (hl : validate_xml (format_xml data) = some liveT)
    (hi : validate_xml icfg = some intentT)
    (hwb : job.webhook = some w) :
    (send_intent_diff_webhook status = .ok () ↔ status = 200) ∧
    (intent_diff_job db job (.ok data) ws).db.diffs
      = db.diffs ++ [diffRecord db job icfg liveT intentT] ∧
    (¬ ws = 200 → (intent_diff_job db job (.ok data) ws).crash = some .assertionError) := by
  have hrun := intent_diff_job_drift db job data ws fv icfg liveT intentT hfv hne hic hl hi
  refine ⟨?_, ?_, ?_⟩
  · unfold send_intent_diff_webhook
    by_cases h : status = 200
    · simp [h]
    · simp [h]
  · rw [hrun]
  · intro hws
    rw [hrun]
    simp only [hwb]
    rw [if_neg hws]

/-- C8 witness at a concrete drifted fetch with a webhook configured. -/
theorem c8_webhook_success_only_200_witness :
    jobWebhook.intent.filter = some "<f><a/></f>" ∧
    ¬ (some (Sha256.sha256hex (format_xml liveDrift)) = jobWebhook.intent.config_hash) ∧
    jobWebhook.intent.config = some "<c><x>1</x></c>" ∧
    validate_xml (format_xml liveDrift) = some liveDriftTree ∧
    validate_xml "<c><x>1</x></c>" = some intentTree ∧
    jobWebhook.webhook = some webhookFixture ∧
    ((send_intent_diff_webhook 201 = .ok () ↔ (201 : Nat) = 200) ∧
      (intent_diff_job dbIntent jobWebhook (.ok liveDrift) 201).db.diffs
        = dbIntent.diffs ++ [diffRecord dbIntent jobWebhook "<c><x>1</x></c>"
            liveDriftTree intentTree] ∧
      (¬ (201 : Nat) = 200 →
        (intent_diff_job dbIntent jobWebhook (.ok liveDrift) 201).crash
          = some .assertionError)) :=
  ⟨by decide, by decide, by decide, by decide, by decide, by decide,
    c8_webhook_success_only_200 201 dbIntent jobWebhook liveDrift 201 "<f><a/></f>"
      "<c><x>1</x></c>" liveDriftTree intentTree webhookFixture
      (by decide) (by decide) (by decide) (by decide) (by decide) (by decide)⟩

/-- C5: semantically identical documents differing only in insignificant
whitespace and attribute order canonicalize to identical bytes, hence equal
hashes; and every derived hash is the 64-character lowercase-hex rendering of
the SHA-256 digest of the canonical bytes. -/
theorem c5_canonical_hash_deterministic (t1 t2 : Node) (h : equivDoc t1 t2 = true)
    (s : String) :
    format_xml t1 = format_xml t2 ∧
    Sha256.sha256hex (format_xml t1) = Sha256.sha256hex (format_xml t2) ∧
    (Sha256.sha256hex s).length = 64 ∧
    (∀ c ∈ (Sha256.sha256hex s).data, isLowerHexChar c = true) := by
  have hf := equivDoc_format_eq h
  exact ⟨hf, by rw [hf], sha256hex_length s, sha256hex_lower s⟩

theorem c5_canonical_hash_deterministic_witness :
    equivDoc eqDocA eqDocB = true ∧
    (format_xml eqDocA = format_xml eqDocB ∧
      Sha256.sha256hex (format_xml eqDocA) = Sha256.sha256hex (format_xml eqDocB) ∧
      (Sha256.sha256hex "cfg").length = 64 ∧
      (∀ c ∈ (Sha256.sha256hex "cfg").data, isLowerHexChar c = true)) :=
  ⟨by decide, c5_canonical_hash_deterministic eqDocA eqDocB (by decide) "cfg"⟩

/-- C6: canonicalization is idempotent — canonicalizing the canonical output
returns the same canonical bytes and the same hash. -/
theorem c6_canonicalize_idempotent (x : String) (t : Node)
    (hparse : validate_xml x = some t) (hwf : wfN (canonN t) = true) :
    canonicalize x = some (format_xml t, Sha256.sha256hex (format_xml t)) ∧
    canonicalize (format_xml t)
      = some (format_xml t, Sha256.sha256hex (format_xml t)) := by
  have hrt := format_xml_roundtrip x t hparse hwf
  have hidem : format_xml (canonN t) = format_xml t := by
    unfold format_xml
    rw [canonN_idem]
  constructor
  · unfold canonicalize
    rw [hparse]
  · unfold canonicalize
    rw [hrt.1]
    show some (format_xml (canonN t), Sha256.sha256hex (format_xml (canonN t)))
      = some (format_xml t, Sha256.sha256hex (format_xml t))
    rw [hidem]

theorem c6_canonicalize_idempotent_witness :
    validate_xml "<a y=\"2\" x=\"1\"> <b>hi</b> </a>" = some docC6 ∧
    wfN (canonN docC6) = true ∧
    (canonicalize "<a y=\"2\" x=\"1\"> <b>hi</b> </a>"
        = some (format_xml docC6, Sha256.sha256hex (format_xml docC6)) ∧
      canonicalize (format_xml docC6)
        = some (format_xml docC6, Sha256.sha256hex (format_xml docC6))) :=
  ⟨by decide, by decide,
    c6_canonicalize_idempotent "<a y=\"2\" x=\"1\"> <b>hi</b> </a>" docC6
      (by decide) (by decide)⟩

/-- C9: updating an existing group's membership always surfaces the explicit
not-implemented condition: never a silent success, and a condition distinct
from the not-found and duplicate-ownership errors. -/
theorem c9_group_update_not_implemented (db : DB) (gid : Nat) (payload : GroupCreate)
    (hex : (get_group db gid).isSome = true) :
    update_intent_group_api db gid payload = .error .notImplemented ∧
    (NetdriftError.notImplemented ≠ NetdriftError.IntentGroupNotFound) ∧
    (NetdriftError.notImplemented ≠ NetdriftError.IntentGroupDuplication) ∧
    (∀ g, update_intent_group_api db gid payload ≠ .ok g) := by
  obtain ⟨g0, hg⟩ := Option.isSome_iff_exists.mp hex
  have hapi : update_intent_group_api db gid payload = .error .notImplemented := by
    unfold update_intent_group_api
    rw [hg]
    rfl
  exact ⟨hapi, by decide, by decide, fun g hc => by rw [hapi] at hc; cases hc⟩

theorem c9_group_update_not_implemented_witness :
    (get_group dbNested 1).isSome = true ∧
    (update_intent_group_api dbNested 1 reqNested = .error .notImplemented ∧
      (NetdriftError.notImplemented ≠ NetdriftError.IntentGroupNotFound) ∧
      (NetdriftError.notImplemented ≠ NetdriftError.IntentGroupDuplication) ∧
      (∀ g, update_intent_group_api dbNested 1 reqNested ≠ .ok g)) :=
  ⟨by decide, c9_group_update_not_implemented dbNested 1 reqNested (by decide)⟩

/-- C7: a second full intent for an occupied hostname is rejected with the
AlreadyExists error (nothing is written: the request aborts before any store
write), creation succeeds again once the existing record is deleted, and
successful creations preserve the at-most-one-full-intent-per-hostname
invariant. -/
theorem c7_full_intent_per_hostname (db : DB) (req : FullCreate) (f : FullIntent)
    (huniq : (db.fulls.map (fun g => g.hostname)).Nodup)
    (hex : get_by_hostname db req.hostname = some f)
    (hparse : (validate_xml req.config).isSome = true) :
    create_full_intent db req = .error .FullIntentAlreadyExist ∧
    (create_full_intent (delete_full_intent db f.id) req).isOk = true ∧
    (∀ db0 req0 db1 r1, (db0.fulls.map (fun g => g.hostname)).Nodup →
      create_full_intent db0 req0 = .ok (db1, r1) →
      (db1.fulls.map (fun g => g.hostname)).Nodup) := by
  refine ⟨?_, ?_, ?_⟩
  · unfold create_full_intent
    rw [hex]
    rfl
  · have hf_mem : f ∈ db.fulls := List.mem_of_find?_eq_some hex
    have hf_host : f.hostname = req.hostname := by
      have := List.find?_some hex
      simpa using this
    have hnone : get_by_hostname (delete_full_intent db f.id) req.hostname = none := by
      unfold get_by_hostname delete_full_intent
      rw [List.find?_eq_none]
      intro g hg
      simp only [List.mem_filter] at hg
      obtain ⟨hgmem, hgid⟩ := hg
      simp only [decide_eq_true_eq]
      intro hghost
      have hgf : g = f :=
        List.inj_on_of_nodup_map huniq hgmem hf_mem (hghost.trans hf_host.symm)
      rw [hgf] at hgid
      simp at hgid
    obtain ⟨xobj, hx⟩ := Option.isSome_iff_exists.mp hparse
    unfold create_full_intent
    rw [hnone, hx]
    rfl
  · intro db0 req0 db1 r1 hnd hok
    unfold create_full_intent at hok
    by_cases hcase : (get_by_hostname db0 req0.hostname).isSome = true
    · rw [if_pos hcase] at hok
      cases hok
    · rw [if_neg hcase] at hok
      cases hvx : validate_xml req0.config with
      | none =>
        rw [hvx] at hok
        cases hok
      | some x =>
        rw [hvx] at hok
        simp only [] at hok
        injection hok with hpair
        have hdb1 : db1 = { db0 with
            fulls := db0.fulls ++
              [{ id := db0.nextId,
                 hostname := req0.hostname,
                 netdrift_managed := req0.netdrift_managed,
                 config := some (format_xml x),
                 config_hash := some (Sha256.sha256hex (format_xml x)) }],
            nextId := db0.nextId + 1 } := by
          have := congrArg Prod.fst hpair
          exact this.symm
        rw [hdb1]
        simp only [List.map_append, List.map_cons, List.map_nil]
        rw [List.nodup_append]
        refine ⟨hnd, List.nodup_singleton _, ?_⟩
        intro h hmem hmem2
        simp only [List.mem_singleton] at hmem2
        subst hmem2
        rw [List.mem_map] at hmem
        obtain ⟨g, hgmem, hghost⟩ := hmem
        have hfind : get_by_hostname db0 req0.hostname = none :=
          Option.not_isSome_iff_eq_none.mp (by simpa using hcase)
        unfold get_by_hostname at hfind
        rw [List.find?_eq_none] at hfind
        exact absurd (by simpa using hghost) (by simpa using hfind g hgmem)

theorem c7_full_intent_per_hostname_witness :
    ((dbOneFull.fulls.map (fun g => g.hostname)).Nodup) ∧
    get_by_hostname dbOneFull "r9" = some fullR9 ∧
    (validate_xml reqFullR9.config).isSome = true ∧
    (create_full_intent dbOneFull reqFullR9 = .error .FullIntentAlreadyExist ∧
      (create_full_intent (delete_full_intent dbOneFull fullR9.id) reqFullR9).isOk = true ∧
      (∀ db0 req0 db1 r1, (db0.fulls.map (fun g => g.hostname)).Nodup →
        create_full_intent db0 req0 = .ok (db1, r1) →
        (db1.fulls.map (fun g => g.hostname)).Nodup)) :=
  ⟨by decide, by decide, by decide,
    c7_full_intent_per_hostname dbOneFull reqFullR9 fullR9 (by decide) (by decide) (by decide)⟩

theorem rehash_ne_apiLock (s : Option String) : rehash s ≠ .error .apiLockError := by
  unfold rehash
  cases s with
  | none => simp
  | some raw => cases hv : validate_xml raw <;> simp [hv]

/-- C10: the managed-flag lock compares the payload value with the stored
value — an update whose payload leaves `netdrift_managed` at its default
`False` against a stored `True` intent is rejected with the API-lock error,
and the check passes exactly when the two values coincide (for both partial
and full intents). -/
theorem c10_managed_lock_value_compare (db : DB) (pid fid : Nat)
    (pUpd : PartialUpdate) (fUpd : FullUpdate) (pEx : PartialIntent) (fEx : FullIntent)
    (hpex : getPartialById db pid = some pEx)
    (hfex : getFullById db fid = some fEx)
    (hpid : pUpd.id = none ∨ pUpd.id = some pEx.id)
    (hfid : fUpd.id = none ∨ fUpd.id = some fEx.id) :
    (updatePartialIntent db pid pUpd = .error .apiLockError ↔
      ¬ pUpd.netdrift_managed = pEx.netdrift_managed) ∧
    (update_full_intent db fid fUpd = .error .apiLockError ↔
      ¬ fUpd.netdrift_managed = fEx.netdrift_managed) := by
  constructor
  · unfold updatePartialIntent
    rw [hpex]
    simp only []
    have hidcond : (pUpd.id.isSome && decide (pUpd.id ≠ some pEx.id)) = false := by
      rcases hpid with h | h <;> simp [h]
    rw [hidcond]
    simp only [Bool.false_eq_true, if_false]
    by_cases hm : pUpd.netdrift_managed = pEx.netdrift_managed
    · rw [if_neg (by simp [hm])]
      constructor
      · intro hcontra
        exfalso
        revert hcontra
        cases hc : rehash pUpd.config with
        | error e =>
          intro hcontra
          injection hcontra with he
          exact rehash_ne_apiLock pUpd.config (by rw [hc, he])
        | ok c =>
          cases hf2 : rehash pUpd.filter with
          | error e =>
            intro hcontra
            injection hcontra with he
            exact rehash_ne_apiLock pUpd.filter (by rw [hf2, he])
          | ok f2 =>
            intro hcontra
            cases hcontra
      · intro h
        exact absurd hm h
    · rw [if_pos (by simp [hm])]
      exact ⟨fun _ => hm, fun _ => rfl⟩
  · unfold update_full_intent
    rw [hfex]
    simp only []
    have hidcond : (fUpd.id.isSome && decide (fUpd.id ≠ some fEx.id)) = false := by
      rcases hfid with h | h <;> simp [h]
    rw [hidcond]
    simp only [Bool.false_eq_true, if_false]
    by_cases hm : fUpd.netdrift_managed = fEx.netdrift_managed
    · rw [if_neg (by simp [hm])]
      constructor
      · intro hcontra
        exfalso
        revert hcontra
        cases hc : rehash fUpd.config with
        | error e =>
          intro hcontra
          injection hcontra with he
          exact rehash_ne_apiLock fUpd.config (by rw [hc, he])
        | ok c =>
          intro hcontra
          cases hcontra
      · intro h
        exact absurd hm h
    · rw [if_pos (by simp [hm])]
      exact ⟨fun _ => hm, fun _ => rfl⟩

theorem c10_managed_lock_value_compare_witness :
    getPartialById dbLocked 10 = some pLocked ∧
    getFullById dbLocked 20 = some fullLocked ∧
    ((updatePartialIntent dbLocked 10 pDefaultUpd = .error .apiLockError ↔
        ¬ pDefaultUpd.netdrift_managed = pLocked.netdrift_managed) ∧
      (update_full_intent dbLocked 20 fDefaultUpd = .error .apiLockError ↔
        ¬ fDefaultUpd.netdrift_managed = fullLocked.netdrift_managed)) := by
  refine ⟨by decide, by decide, ?_⟩
  exact c10_managed_lock_value_compare dbLocked 10 20 pDefaultUpd fDefaultUpd
    pLocked fullLocked (by decide) (by decide) (Or.inl (by decide)) (Or.inl (by decide))

/-- C3 counterexample: hostname is a strict equality key in the filter-hash
dedup query, not a nullable join key — a hostname-less stored partial intent
with the same canonical filter hash does not conflict with a hostname-scoped
creation request, which succeeds. -/
theorem c3_counterexample :
    pCommon.hostname = none ∧
    reqScoped.hostname = some "r1" ∧
    pCommon.filter_hash = some (requestFilterHash reqScoped) ∧
    (createPartialIntent dbOnePartial reqScoped).isOk = true := by
  decide

/-- C3 (amended): given the request's config parses and its canonical hash has
no conflict, and the filter parses, partial-intent creation fails with the
filter AlreadyExists error exactly when some stored partial intent carries
literally the same (possibly absent) hostname together with the request's
canonical filter hash. -/
theorem c3_filter_conflict_strict_hostname (db : DB) (req : PartialCreate)
    (c f : Node)
    (hc : validate_xml req.config = some c)
    (hf : validate_xml req.filter = some f)
    (hnoc : getAllByConfigHash db (Sha256.sha256hex (format_xml c)) req.hostname = []) :
    createPartialIntent db req = .error .PartialIntentFilterAlreadyExist ↔
      ∃ p ∈ db.parts, p.hostname = req.hostname ∧
        p.filter_hash = some (requestFilterHash req) := by
  have hreq : requestFilterHash req = Sha256.sha256hex (format_xml f) := by
    unfold requestFilterHash
    rw [hf]
  unfold createPartialIntent
  rw [hc]
  simp only []
  rw [hnoc]
  rw [if_neg (by simp)]
  rw [hf]
  simp only []
  rw [← hreq]
  by_cases hq : getAllByFilterHash db (requestFilterHash req) req.hostname = []
  · rw [if_neg (by simp [hq])]
    constructor
    · intro h
      simp at h
    · rintro ⟨p, hp, h1, h2⟩
      exfalso
      unfold getAllByFilterHash at hq
      rw [List.filter_eq_nil_iff] at hq
      apply hq p hp
      simp [h1, h2]
  · rw [if_pos hq]
    constructor
    · intro _
      obtain ⟨p, hpmem⟩ := List.exists_mem_of_ne_nil _ hq
      unfold getAllByFilterHash at hpmem
      have hsplit := List.mem_filter.mp hpmem
      have hpred := hsplit.2
      rw [Bool.and_eq_true, decide_eq_true_eq, decide_eq_true_eq] at hpred
      exact ⟨p, hsplit.1, hpred.1, hpred.2⟩
    · intro _
      rfl

theorem c3_filter_conflict_strict_hostname_witness :
    createPartialIntent dbScoped reqScoped = .error .PartialIntentFilterAlreadyExist ↔
      ∃ p ∈ dbScoped.parts, p.hostname = reqScoped.hostname ∧
        p.filter_hash = some (requestFilterHash reqScoped) :=
  c3_filter_conflict_strict_hostname dbScoped reqScoped cScopedNode fScopedNode
    (by decide) (by decide) (by decide)

theorem addInherited_char : ∀ (ps : List PartialIntent) (managed : List Nat),
    managed.Nodup →
    (addInherited ps managed = .error .IntentGroupDuplication ∧
      ¬(managed ++ ps.map (fun p => p.id)).Nodup) ∨
    (addInherited ps managed = .ok (managed ++ ps.map (fun p => p.id)) ∧
      (managed ++ ps.map (fun p => p.id)).Nodup)
  | [], managed, h => by
    right
    constructor
    · simp [addInherited]
    · simp [h]
  | p :: rest, managed, h => by
    unfold addInherited
    by_cases hmem : p.id ∈ managed
    · rw [if_pos hmem]
      left
      refine ⟨rfl, ?_⟩
      intro hnd
      rw [List.nodup_append] at hnd
      exact hnd.2.2 hmem (by simp)
    · rw [if_neg hmem]
      have hnd2 : (managed ++ [p.id]).Nodup := by
        rw [List.nodup_append]
        refine ⟨h, List.nodup_singleton _, ?_⟩
        intro a ha hb
        simp only [List.mem_singleton] at hb
        subst hb
        exact hmem ha
      have heq : (managed ++ [p.id]) ++ rest.map (fun q => q.id)
          = managed ++ (p :: rest).map (fun q => q.id) := by
        simp [List.append_assoc]
      rcases addInherited_char rest (managed ++ [p.id]) hnd2 with ⟨he, hn⟩ | ⟨he, hn⟩
      · left
        rw [heq] at hn
        exact ⟨he, hn⟩
      · right
        rw [heq] at he hn
        exact ⟨he, hn⟩

theorem resolveIntents_char (db : DB) :
    ∀ (ids managed : List Nat) (acc : List PartialIntent),
    managed.Nodup →
    (∀ i ∈ ids, match getPartialById db i with
      | some p => p.hostname = none
      | none => False) →
    (resolveIntents db none ids managed acc = .error .IntentGroupDuplication ∧
      ¬(managed ++ ids).Nodup) ∨
    (∃ acc2, resolveIntents db none ids managed acc = .ok (managed ++ ids, acc2) ∧
      (managed ++ ids).Nodup)
  | [], managed, acc, h, _ => by
    right
    exact ⟨acc, by simp [resolveIntents], by simp [h]⟩
  | i :: rest, managed, acc, h, hres => by
    have hi := hres i (by simp)
    unfold resolveIntents
    by_cases hmem : i ∈ managed
    · rw [if_pos hmem]
      left
      refine ⟨rfl, ?_⟩
      intro hnd
      rw [List.nodup_append] at hnd
      exact hnd.2.2 hmem (by simp)
    · rw [if_neg hmem]
      cases hg : getPartialById db i with
      | none =>
        rw [hg] at hi
        exact absurd hi (by simp)
      | some p =>
        rw [hg] at hi
        simp only [] at hi
        have hpid : p.id = i := by
          have := List.find?_some hg
          simpa using this
        simp only []
        rw [hi]
        simp only [Option.isSome_none, Bool.and_false, Bool.false_and,
          Bool.false_eq_true, if_false]
        rw [hpid]
        have hnd2 : (managed ++ [i]).Nodup := by
          rw [List.nodup_append]
          refine ⟨h, List.nodup_singleton _, ?_⟩
          intro a ha hb
          simp only [List.mem_singleton] at hb
          subst hb
          exact hmem ha
        have heq : (managed ++ [i]) ++ rest = managed ++ i :: rest := by
          simp [List.append_assoc]
        rcases resolveIntents_char db rest (managed ++ [i]) (acc ++ [p]) hnd2
            (fun j hj => hres j (by simp [hj])) with ⟨he, hn⟩ | ⟨acc2, he, hn⟩
        · left
          rw [heq] at hn
          exact ⟨he, hn⟩
        · right
          rw [heq] at he hn
          exact ⟨acc2, he, hn⟩

theorem resolveGroups_char (db : DB) :
    ∀ (gids managed : List Nat) (acc : List IntentGroup),
    managed.Nodup →
    (∀ gid ∈ gids, match get_group db gid with
      | some g => g.hostname = none
      | none => False) →
    (resolveGroups db none gids managed acc = .error .IntentGroupDuplication ∧
      ¬(managed ++ ((gids.filterMap (get_group db)).map
          (fun g => g.intents.map (fun p => p.id))).flatten).Nodup) ∨
    (∃ m2 acc2, resolveGroups db none gids managed acc = .ok (m2, acc2) ∧
      (managed ++ ((gids.filterMap (get_group db)).map
          (fun g => g.intents.map (fun p => p.id))).flatten).Nodup)
  | [], managed, acc, h, _ => by
    right
    exact ⟨managed, acc, by simp [resolveGroups], by simp [h]⟩
  | gid :: rest, managed, acc, h, hres => by
    have hgm := hres gid (by simp)
    unfold resolveGroups
    cases hget : get_group db gid with
    | none =>
      rw [hget] at hgm
      exact absurd hgm (by simp)
    | some g =>
      rw [hget] at hgm
      simp only [] at hgm
      simp only []
      simp only [hgm, Option.isSome_none, Bool.and_false, Bool.false_and,
        Bool.false_eq_true, if_false]
      have hF : (((gid :: rest).filterMap (get_group db)).map
            (fun g2 => g2.intents.map (fun p => p.id))).flatten
          = g.intents.map (fun p => p.id) ++
            ((rest.filterMap (get_group db)).map
              (fun g2 => g2.intents.map (fun p => p.id))).flatten := by
        simp [List.filterMap_cons, hget]
      rcases addInherited_char g.intents managed h with ⟨he, hn⟩ | ⟨he, hn⟩
      · rw [he]
        left
        refine ⟨rfl, ?_⟩
        intro hc
        apply hn
        rw [hF, ← List.append_assoc] at hc
        exact hc.of_append_left
      · rw [he]
        have heq : (managed ++ g.intents.map (fun p => p.id)) ++
              ((rest.filterMap (get_group db)).map
                (fun g2 => g2.intents.map (fun p => p.id))).flatten
            = managed ++ (((gid :: rest).filterMap (get_group db)).map
                (fun g2 => g2.intents.map (fun p => p.id))).flatten := by
          rw [hF, List.append_assoc]
        rcases resolveGroups_char db rest (managed ++ g.intents.map (fun p => p.id))
            (acc ++ [g]) hn (fun j hj => hres j (by simp [hj])) with
          ⟨he2, hn2⟩ | ⟨m2, acc2, he2, hn2⟩
        · left
          rw [heq] at hn2
          exact ⟨he2, hn2⟩
        · right
          rw [heq] at hn2
          exact ⟨m2, acc2, he2, hn2⟩

/-- C2 counterexample: the spec's any-depth reachability invariant is violated
while creation still succeeds — intent 10 is reachable both directly and
through a referenced group's nested sub-group, yet no Duplication error is
raised because nested sub-groups are never traversed. -/
theorem c2_counterexample :
    hasDuplicateReachable dbNested reqNested = true ∧
    (create_intent_group dbNested reqNested).isOk = true := by
  decide

/-- C2 (amended): the duplication check covers exactly depth one — the
request's direct intent list plus the direct member intents of each referenced
group. Under a fresh label, a hostname-free request, and resolvable
hostname-free references, creation fails with the Duplication error precisely
when that depth-one id list has a repeat; intents owned only by nested
sub-groups of a referenced group are never added to the managed set. -/
theorem c2_duplication_depth1 (db : DB) (req : GroupCreate)
    (hlabel : get_group_by_label db req.label = none)
    (hhost : req.hostname = none)
    (hint : ∀ i ∈ req.intents, match getPartialById db i with
      | some p => p.hostname = none
      | none => False)
    (hgrp : ∀ gid ∈ req.groups, match get_group db gid with
      | some g => g.hostname = none
      | none => False) :
    create_intent_group db req = .error .IntentGroupDuplication ↔
      ¬(depth1Ids db req).Nodup := by
  unfold create_intent_group depth1Ids
  rw [hlabel]
  rw [if_neg (by simp)]
  rw [hhost]
  rcases resolveIntents_char db req.intents [] [] List.nodup_nil hint with
    ⟨he, hn⟩ | ⟨acc2, he, hn⟩
  · rw [he]
    simp only [List.nil_append] at hn
    constructor
    · intro _ hc
      exact hn hc.of_append_left
    · intro _
      rfl
  · simp only [List.nil_append] at he hn
    rw [he]
    simp only []
    rcases resolveGroups_char db req.groups req.intents [] hn hgrp with
      ⟨he2, hn2⟩ | ⟨m2, acc2b, he2, hn2⟩
    · rw [he2]
      constructor
      · intro _
        exact hn2
      · intro _
        rfl
    · rw [he2]
      constructor
      · intro hcc
        simp at hcc
      · intro hcontra
        exact absurd hn2 hcontra

theorem c2_duplication_depth1_witness :
    create_intent_group dbNested reqDup1 = .error .IntentGroupDuplication ↔
      ¬(depth1Ids dbNested reqDup1).Nodup :=
  c2_duplication_depth1 dbNested reqDup1 (by decide) (by decide)
    (by
      intro i hi
      simp only [reqDup1, List.mem_singleton] at hi
      subst hi
      exact rfl)
    (by
      intro gid hg
      simp only [reqDup1, List.mem_singleton] at hg
      subst hg
      exact rfl)


end Netdrift
